import Mathlib

/-!
Verification of `qlib/rl/neural_trading_migration/naive_config_parser.py`.

The module manipulates Python values: scalars (`None`, booleans, integers,
float literals, strings), lists, tuples and string-keyed dicts.  We embed
such values as the inductive type `Val`.  Float literals are never computed
with in this module (they are only stored and compared), so a float literal
is represented by its decimal mantissa `m` and exponent `e`, denoting
`m * 10^(-e)`; e.g. `0.0005` is `vfloat 5 4` and `100.0` is `vfloat 100 0`.

Dicts are association lists in insertion order, mirroring Python dict
semantics (`b[k] = v` overwrites in place when `k` is present, appends
otherwise).  The embedding treats values as trees (no object aliasing);
mutation performed by the source (the `v.pop("_delete_", False)` in
`merge_a_into_b`) is modelled by returning, next to the result, the
post-call value of the mutated argument.
-/

inductive Val where
  | vnone
  | vbool (b : Bool)
  | vint (n : Int)
  | vfloat (m : Int) (e : Nat)
  | vstr (s : String)
  | vlist (xs : List Val)
  | vtuple (xs : List Val)
  | vdict (es : List (String × Val))

abbrev Entries := List (String × Val)

mutual

def Val.beq : Val → Val → Bool
  | .vnone, .vnone => true
  | .vbool a, .vbool b => a == b
  | .vint a, .vint b => a == b
  | .vfloat a e, .vfloat b f => a == b && e == f
  | .vstr a, .vstr b => a == b
  | .vlist a, .vlist b => Val.beqList a b
  | .vtuple a, .vtuple b => Val.beqList a b
  | .vdict a, .vdict b => Val.beqEntries a b
  | _, _ => false

def Val.beqList : List Val → List Val → Bool
  | [], [] => true
  | a :: as', b :: bs' => Val.beq a b && Val.beqList as' bs'
  | _, _ => false

def Val.beqEntries : Entries → Entries → Bool
  | [], [] => true
  | (k, a) :: as', (k2, b) :: bs' => k == k2 && Val.beq a b && Val.beqEntries as' bs'
  | _, _ => false

end

theorem Val.beq_iff : ∀ a b : Val, Val.beq a b = true ↔ a = b := by
  have main : ∀ n (a : Val), sizeOf a < n → ∀ b, Val.beq a b = true ↔ a = b := by
    intro n
    induction n with
    | zero => intro a ha; omega
    | succ n ih =>
      intro a ha b
      cases a <;> cases b <;> simp [Val.beq]
      case vlist.vlist xs ys =>
        have hsz : sizeOf xs < n := by simp at ha; omega
        clear ha
        induction xs generalizing ys with
        | nil => cases ys <;> simp [Val.beqList]
        | cons x xs ihx =>
          cases ys with
          | nil => simp [Val.beqList]
          | cons y ys =>
            have hx : sizeOf x < n := by simp at hsz; omega
            have hxs : sizeOf xs < n := by simp at hsz; omega
            simp [Val.beqList, ih x hx y]
            exact fun _ => ihx ys hxs
      case vtuple.vtuple xs ys =>
        have hsz : sizeOf xs < n := by simp at ha; omega
        clear ha
        induction xs generalizing ys with
        | nil => cases ys <;> simp [Val.beqList]
        | cons x xs ihx =>
          cases ys with
          | nil => simp [Val.beqList]
          | cons y ys =>
            have hx : sizeOf x < n := by simp at hsz; omega
            have hxs : sizeOf xs < n := by simp at hsz; omega
            simp [Val.beqList, ih x hx y]
            exact fun _ => ihx ys hxs
      case vdict.vdict xs ys =>
        have hsz : sizeOf xs < n := by simp at ha; omega
        clear ha
        induction xs generalizing ys with
        | nil => cases ys <;> simp [Val.beqEntries]
        | cons x xs ihx =>
          cases ys with
          | nil => simp [Val.beqEntries]
          | cons y ys =>
            obtain ⟨k, v⟩ := x
            obtain ⟨k2, v2⟩ := y
            have hv : sizeOf v < n := by simp at hsz; omega
            have hxs : sizeOf xs < n := by simp at hsz; omega
            simp [Val.beqEntries, ih v hv v2, and_assoc]
            exact fun _ _ => ihx ys hxs
  intro a b
  exact main (sizeOf a + 1) a (Nat.lt_succ_self _) b

instance : DecidableEq Val := fun a b =>
  decidable_of_iff (Val.beq a b = true) (Val.beq_iff a b)

/-- Lookup of the value stored under key `k` (first occurrence), modelling
Python `d[k]` / `d.get(k)` on dicts. -/
def lookupV (l : Entries) (k : String) : Option Val :=
  (l.find? (fun p => p.1 == k)).map (fun p => p.2)

/-- Python `k in d`. -/
def hasKey (l : Entries) (k : String) : Bool :=
  l.any (fun p => p.1 == k)

/-- Value under `k`, with an irrelevant default (only used under `hasKey`). -/
def getV (l : Entries) (k : String) : Val :=
  (lookupV l k).getD .vnone

/-- Python `d[k] = v`: overwrite in place when `k` is present, else append. -/
def setKey (l : Entries) (k : String) (v : Val) : Entries :=
  if hasKey l k then l.map (fun p => if p.1 = k then (p.1, v) else p)
  else l ++ [(k, v)]

/-- Python `d.pop(k, default)`: the dict with the entry for `k` removed. -/
def eraseKey (l : Entries) (k : String) : Entries :=
  l.filter (fun p => !(p.1 == k))

theorem sizeOf_eraseKey_le (l : Entries) (k : String) :
    sizeOf (eraseKey l k) ≤ sizeOf l := by
  induction l with
  | nil => simp [eraseKey]
  | cons p rest ih =>
    simp only [eraseKey, List.filter] at ih ⊢
    cases hc : (!(p.1 == k)) <;> simp <;> omega

mutual

/-- Source lines 14-22, `merge_a_into_b(a, b)` for `a` a dict and `b` an
arbitrary value.  `b = b.copy()` succeeds exactly on dicts and lists (Python
`AttributeError` otherwise, modelled as `Except.error`); when `b` is a list,
the subsequent `b[k] = ...` raises `TypeError` unless the loop body never
runs (`a` empty).  The second component is the post-call value of `a`: the
source's `v.pop("_delete_", False)` removes `_delete_` in place from every
nested dict of `a` that undergoes a recursive merge, and that mutation
persists even when a later step raises. -/
def mergeRun (a : Entries) (b : Val) :
    Except Unit Val × Entries :=
  match b with
  | .vdict bd =>
    let rp := mergeGo a bd
    ((rp.1).map Val.vdict, rp.2)
  | .vlist xs =>
    match a with
    | [] => (.ok (.vlist xs), [])
    | _ => (.error (), a)
  | _ => (.error (), a)
termination_by (sizeOf a, 1 + sizeOf b)
decreasing_by
  all_goals (apply Prod.Lex.right; simp; try omega)

/-- The `for k, v in a.items()` loop of `merge_a_into_b`, iterating over the
remaining entries of `a` with `bd` the current state of the copied `b`. -/
def mergeGo (a : Entries) (bd : Entries) :
    Except Unit Entries × Entries :=
  match a with
  | [] => (.ok bd, [])
  | (k, v) :: rest =>
    match v with
    | .vdict d =>
      if hasKey bd k then
        match mergeRun (eraseKey d "_delete_") (getV bd k) with
        | (.error _, dPost) => (.error (), (k, .vdict dPost) :: rest)
        | (.ok w, dPost) =>
          let rp := mergeGo rest (setKey bd k w)
          (rp.1, (k, .vdict dPost) :: rp.2)
      else
        let rp := mergeGo rest (setKey bd k (.vdict d))
        (rp.1, (k, .vdict d) :: rp.2)
    | _ =>
      let rp := mergeGo rest (setKey bd k v)
      (rp.1, (k, v) :: rp.2)
termination_by (sizeOf a, sizeOf bd)
decreasing_by
  all_goals (apply Prod.Lex.left; simp; try omega)
  have h9 := sizeOf_eraseKey_le d "_delete_"
  omega

end

/-- Result of `merge_a_into_b(a, b)` for arbitrary values: when `a` is not a
dict the call raises (`a.items()` fails). -/
def merge_a_into_b (a b : Val) : Except Unit Val :=
  match a with
  | .vdict ad => (mergeRun ad b).1
  | _ => .error ()

/-- Post-call value of the first argument of `merge_a_into_b(a, b)`. -/
def merge_a_into_b_postA (a b : Val) : Val :=
  match a with
  | .vdict ad => .vdict (mergeRun ad b).2
  | _ => a

mutual

/-- Executable size measure on values, used to pick a sufficient fuel for
`mergeGoF`. -/
def valSize : Val → Nat
  | .vlist xs => 1 + listSize xs
  | .vtuple xs => 1 + listSize xs
  | .vdict es => 1 + entriesSize es
  | _ => 1

def entriesSize : Entries → Nat
  | [] => 1
  | (_, v) :: rest => 1 + (1 + 1 + valSize v) + entriesSize rest

def listSize : List Val → Nat
  | [] => 1
  | v :: rest => 1 + valSize v + listSize rest

end

/-- Fuel-indexed mirror of the `mergeGo`/`mergeRun` pair, structurally
recursive on `fuel` so that the kernel can evaluate it; it agrees with
`mergeGo` whenever `sizeOf a ≤ fuel` (theorem `mergeGoF_eq_mergeGo`). -/
def mergeGoF : Nat → Entries → Entries → Except Unit Entries × Entries
  | 0, a, _ => (.error (), a)
  | fuel + 1, a, bd =>
    match a with
    | [] => (.ok bd, [])
    | (k, v) :: rest =>
      match v with
      | .vdict d =>
        if hasKey bd k then
          let inner : Except Unit Val × Entries :=
            match getV bd k with
            | .vdict bd2 =>
              let rp := mergeGoF fuel (eraseKey d "_delete_") bd2
              ((rp.1).map Val.vdict, rp.2)
            | .vlist xs =>
              match eraseKey d "_delete_" with
              | [] => (.ok (.vlist xs), ([] : Entries))
              | e :: es => (.error (), e :: es)
            | _ => (.error (), eraseKey d "_delete_")
          match inner with
          | (.error _, dPost) => (.error (), (k, .vdict dPost) :: rest)
          | (.ok w, dPost) =>
            let rp := mergeGoF fuel rest (setKey bd k w)
            (rp.1, (k, .vdict dPost) :: rp.2)
        else
          let rp := mergeGoF fuel rest (setKey bd k (.vdict d))
          (rp.1, (k, .vdict d) :: rp.2)
      | _ =>
        let rp := mergeGoF fuel rest (setKey bd k v)
        (rp.1, (k, v) :: rp.2)

/-- Computable form of `mergeGo` (see `mergeGoC_eq`). -/
def mergeGoC (a bd : Entries) : Except Unit Entries × Entries :=
  mergeGoF (entriesSize a) a bd

/-- Computable form of `mergeRun` (see `mergeRunC_eq`). -/
def mergeRunC (a : Entries) (b : Val) : Except Unit Val × Entries :=
  match b with
  | .vdict bd =>
    let rp := mergeGoC a bd
    ((rp.1).map Val.vdict, rp.2)
  | .vlist xs =>
    match a with
    | [] => (.ok (.vlist xs), [])
    | _ => (.error (), a)
  | _ => (.error (), a)

/-- Computable form of `merge_a_into_b` (see `merge_a_into_bC_eq`). -/
def merge_a_into_bC (a b : Val) : Except Unit Val :=
  match a with
  | .vdict ad => (mergeRunC ad b).1
  | _ => .error ()

/-- Computable form of `merge_a_into_b_postA` (see `postAC_eq`). -/
def merge_a_into_b_postAC (a b : Val) : Val :=
  match a with
  | .vdict ad => .vdict (mergeRunC ad b).2
  | _ => a

/-- Errors raised by the loader, named after the Python exception classes. -/
inductive Err where
  | fileNotFound (msg : String)
  | ioError (msg : String)
  | typeError
  | attributeError
  | keyError (k : String)
  | importError
  | recursionError
  deriving DecidableEq

/-- Model of Python `os.path.isabs`: the path begins with `/`. -/
def isAbsolutePath (p : String) : Bool :=
  match p.toList with
  | c :: _ => c = '/'
  | [] => false

/-- Model of Python `os.path.abspath` relative to a current working
directory `cwd` (no `..`/`.` normalisation; sufficient for the paths
considered here). -/
def absPath (cwd p : String) : String :=
  if isAbsolutePath p then p else cwd ++ "/" ++ p

/-- Split a character list at its last occurrence of `c`:
`some (before, after)` when `c` occurs, `none` otherwise. -/
def splitLastChar (c : Char) : List Char → Option (List Char × List Char)
  | [] => none
  | x :: xs =>
    match splitLastChar c xs with
    | some (p, q) => some (x :: p, q)
    | none => if x = c then some ([], xs) else none

/-- Model of `os.path.dirname`: everything before the last `/`. -/
def dirName (p : String) : String :=
  match splitLastChar '/' p.toList with
  | some (d, _) => String.mk d
  | none => ""

/-- Model of `os.path.basename`: everything after the last `/`. -/
def baseName (p : String) : String :=
  match splitLastChar '/' p.toList with
  | some (_, b) => String.mk b
  | none => p

/-- Model of `os.path.join(d, f)` for a relative or absolute `f`. -/
def joinPath (d f : String) : String :=
  if isAbsolutePath f then f else if d = "" then f else d ++ "/" ++ f

/-- Model of `os.path.splitext(p)[1]`: the extension of the basename, the
leading dots of the basename not counting as extension separators. -/
def extOf (p : String) : String :=
  let b := (baseName p).toList.dropWhile (fun c => c = '.')
  match splitLastChar '.' b with
  | some (_, suf) => String.mk ('.' :: suf)
  | none => ""

/-- Source lines 60-61: a `_base_` value that is not a list is wrapped into
a one-element list. -/
def wrapBases : Val → List Val
  | .vlist xs => xs
  | v => [v]

/-- Source lines 63-65: the loop folding the listed base configurations,
`config = merge_a_into_b(a=config, b=base_config)` for each base path in
order, with `load` the recursive invocation of the parser at the remaining
recursion depth.  A non-string base path makes `os.path.join` raise
`TypeError`; a failing load or merge propagates. -/
def parseBases (load : String → Except Err Entries) (dir : String)
    (bs : List Val) (cur : Entries) : Except Err Entries :=
  bs.foldl
    (fun acc f =>
      match acc with
      | .error e => .error e
      | .ok current =>
        match f with
        | .vstr ss =>
          match load (joinPath dir ss) with
          | .error e => .error e
          | .ok baseConfig =>
            match (mergeGoC current baseConfig).1 with
            | .error _ => .error .attributeError
            | .ok merged => .ok merged
        | _ => .error .typeError)
    (.ok cur)

/-- Source lines 30-67, `parse_backtest_config(path)`.  File-system access
and format dispatch (YAML/JSON safe parsing, or executing a `.py` file in a
temporary module and collecting its non-dunder top-level bindings) are
abstracted by `fs`, which maps an absolute path of an existing, parseable
configuration file to its resulting mapping.  `cwd` is the process working
directory used by `os.path.abspath`; `fuel` bounds the recursion depth
(Python would raise `RecursionError` on a cyclic `_base_` chain).  The
merge performed for `_base_` entries is `mergeGoC`, which is equal to the
`mergeGo` loop of `merge_a_into_b` by `mergeGoC_eq`. -/
def parseBacktestConfig (fs : String → Option Entries) (cwd : String) :
    Nat → String → Except Err Entries
  | 0, _ => .error .recursionError
  | fuel + 1, path =>
    let abs := absPath cwd path
    match fs abs with
    | none => .error (.fileNotFound ("file \"" ++ abs ++ "\" does not exist"))
    | some config =>
      if extOf abs = ".py" ∨ extOf abs = ".json" ∨ extOf abs = ".yaml" ∨ extOf abs = ".yml" then
        match lookupV config "_base_" with
        | none => .ok config
        | some bv =>
          parseBases (parseBacktestConfig fs cwd fuel) (dirName abs)
            (wrapBases bv) (eraseKey config "_base_")
      else
        .error (.ioError "Only py/yml/yaml/json type are supported now!")

mutual

/-- Source lines 70-76, `_convert_all_list_to_tuple`: each list value of
the dict becomes a tuple of the same elements (elements themselves are not
converted), each dict value is recursed into, everything else is kept. -/
def convertAllListToTuple (config : Entries) : Entries :=
  match config with
  | [] => []
  | (k, v) :: rest => (k, convertValListToTuple v) :: convertAllListToTuple rest

/-- Source lines 72-75, the per-value case split of
`_convert_all_list_to_tuple`: a list becomes a tuple of the same elements,
a dict is recursed into, anything else is kept. -/
def convertValListToTuple (v : Val) : Val :=
  match v with
  | .vlist xs => .vtuple xs
  | .vdict es => .vdict (convertAllListToTuple es)
  | w => w

end

/-- Source lines 82-89: the fixed default exchange mapping. -/
def exchange_config_default : Entries :=
  [("open_cost", .vfloat 5 4), ("close_cost", .vfloat 15 4), ("min_cost", .vfloat 5 0),
   ("trade_unit", .vfloat 100 0), ("cash_limit", .vnone), ("generate_report", .vbool false)]

/-- Source lines 93-100: the fixed top-level default mapping. -/
def backtest_config_default : Entries :=
  [("debug_single_stock", .vnone), ("debug_single_day", .vnone), ("concurrency", .vint (-1)),
   ("multiplier", .vfloat 1 0), ("output_dir", .vstr "outputs/")]

/-- Source lines 79-103, `get_backtest_config_fromfile(path)`: load, merge
the `exchange` section onto the exchange defaults (`KeyError` when absent),
convert its lists to tuples, then merge the whole config onto the top-level
defaults.  The merges are the computable forms `merge_a_into_bC` and
`mergeGoC`, equal to the source-shaped `merge_a_into_b` and `mergeGo` by
`merge_a_into_bC_eq` and `mergeGoC_eq`. -/
def get_backtest_config_fromfile (fs : String → Option Entries) (cwd : String)
    (fuel : Nat) (path : String) : Except Err Entries :=
  match parseBacktestConfig fs cwd fuel path with
  | .error e => .error e
  | .ok backtestConfig =>
    match lookupV backtestConfig "exchange" with
    | none => .error (.keyError "exchange")
    | some ex =>
      match merge_a_into_bC ex (.vdict exchange_config_default) with
      | .error _ => .error .attributeError
      | .ok merged =>
        let exchangeNew : Val :=
          match merged with
          | .vdict es => .vdict (convertAllListToTuple es)
          | w => w
        let config1 := setKey backtestConfig "exchange" exchangeNew
        match (mergeGoC config1 backtest_config_default).1 with
        | .error _ => .error .attributeError
        | .ok finalConfig => .ok finalConfig

/-- Source lines 110-114 for a string `type`: split at the last `.` via
`rindex` into `(module_path, class_name)`; no dot gives `("", type_name)`. -/
def splitTypeName (s : String) : String × String :=
  match splitLastChar '.' s.toList with
  | some (p, q) => (String.mk p, String.mk q)
  | none => ("", s)

/-- Python `"." in v` for a non-string `v`: key membership for dicts,
element membership for lists and tuples, `TypeError` for non-iterables. -/
def pyContainsDot : Val → Except Unit Bool
  | .vdict es => .ok (es.any (fun p => p.1 == "."))
  | .vlist xs => .ok (xs.any (fun x => x == .vstr "."))
  | .vtuple xs => .ok (xs.any (fun x => x == .vstr "."))
  | .vstr s => .ok (s.toList.contains '.')
  | _ => .error ()

mutual

/-- Source lines 106-133, `convert_instance_config(config)`.  A dict with a
string `type` becomes the `{class, module_path, kwargs}` descriptor; with a
non-string `type`, the source evaluates `"." in type_name` (which raises
`TypeError` on non-iterables and `AttributeError` via `rindex` when the test
succeeds) and otherwise keeps the value itself as `class`.  Dicts without
`type` are converted value-wise, lists and tuples element-wise, and all
other values returned unchanged. -/
def convertInstanceConfig (config : Val) : Except Unit Val :=
  match config with
  | .vdict es =>
    match lookupV es "type" with
    | some (.vstr s) =>
      match convertKwargs es with
      | .error e => .error e
      | .ok kw =>
        .ok (.vdict [("class", .vstr (splitTypeName s).2),
                     ("module_path", .vstr (splitTypeName s).1),
                     ("kwargs", .vdict kw)])
    | some tv =>
      match pyContainsDot tv with
      | .error e => .error e
      | .ok true => .error ()
      | .ok false =>
        match convertKwargs es with
        | .error e => .error e
        | .ok kw =>
          .ok (.vdict [("class", tv), ("module_path", .vstr ""), ("kwargs", .vdict kw)])
    | none =>
      match convertEntries es with
      | .error e => .error e
      | .ok es' => .ok (.vdict es')
  | .vlist xs =>
    match convertList xs with
    | .error e => .error e
    | .ok ys => .ok (.vlist ys)
  | .vtuple xs =>
    match convertList xs with
    | .error e => .error e
    | .ok ys => .ok (.vtuple ys)
  | v => .ok v

/-- Source lines 116-120: the `kwargs` loop, converting every entry except
the `type` one. -/
def convertKwargs (l : Entries) : Except Unit Entries :=
  match l with
  | [] => .ok []
  | (k, v) :: rest =>
    if k == "type" then convertKwargs rest
    else
      match convertInstanceConfig v with
      | .error e => .error e
      | .ok v' =>
        match convertKwargs rest with
        | .error e => .error e
        | .ok rest' => .ok ((k, v') :: rest')

/-- Source line 127: value-wise conversion of a dict without `type`. -/
def convertEntries (l : Entries) : Except Unit Entries :=
  match l with
  | [] => .ok []
  | (k, v) :: rest =>
    match convertInstanceConfig v with
    | .error e => .error e
    | .ok v' =>
      match convertEntries rest with
      | .error e => .error e
      | .ok rest' => .ok ((k, v') :: rest')

/-- Source lines 129-131: element-wise conversion of a list or tuple. -/
def convertList (l : List Val) : Except Unit (List Val) :=
  match l with
  | [] => .ok []
  | v :: rest =>
    match convertInstanceConfig v with
    | .error e => .error e
    | .ok v' =>
      match convertList rest with
      | .error e => .error e
      | .ok rest' => .ok (v' :: rest')

end

/-- Process-wide interpreter state touched by the script-module loader:
`sys.path` and the registered module names of `sys.modules`. -/
structure SysState where
  path : List String
  modules : List String
  deriving DecidableEq

/-- Source lines 46-54, the script-module (.py) branch of
`parse_backtest_config`: `sys.path.insert(0, tmp_config_dir)`, then
`import_module`, then `sys.path.pop(0)`, the collection of non-dunder
bindings, and `del sys.modules[tmp_module_name]`.  `importOk` abstracts
whether executing the module raises; on failure the exception propagates
immediately, so the statements after `import_module` do not run.
`bindings` abstracts the collected non-dunder top-level bindings. -/
def loadPyModule (importOk : Bool) (bindings : Entries)
    (tmpConfigDir tmpModuleName : String) (st : SysState) :
    Except Err Entries × SysState :=
  let st1 : SysState := ⟨tmpConfigDir :: st.path, st.modules⟩
  if importOk then
    let st2 : SysState := ⟨st1.path, tmpModuleName :: st1.modules⟩
    let st3 : SysState := ⟨st2.path.tail, st2.modules⟩
    let st4 : SysState := ⟨st3.path, st3.modules.erase tmpModuleName⟩
    (.ok bindings, st4)
  else
    (.error .importError, st1)

mutual

/-- True when no dict anywhere inside the value has a `_delete_` key. -/
def noDelete : Val → Bool
  | .vdict es => noDeleteEntries es
  | .vlist xs => noDeleteList xs
  | .vtuple xs => noDeleteList xs
  | _ => true

def noDeleteEntries : Entries → Bool
  | [] => true
  | (k, v) :: rest => !(k == "_delete_") && noDelete v && noDeleteEntries rest

def noDeleteList : List Val → Bool
  | [] => true
  | v :: rest => noDelete v && noDeleteList rest

end

mutual

/-- Stated from the spec's words for the deletion-marker sentence: "the
same overlay with all `_delete_` keys removed" — every `_delete_` entry of
every dict, at every depth, is removed.  This definition follows the spec
text and is compared against the source's merge. -/
def stripDelete : Val → Val
  | .vdict es => .vdict (stripDeleteEntries es)
  | .vlist xs => .vlist (stripDeleteList xs)
  | .vtuple xs => .vtuple (stripDeleteList xs)
  | v => v

def stripDeleteEntries : Entries → Entries
  | [] => []
  | (k, v) :: rest =>
    if k == "_delete_" then stripDeleteEntries rest
    else (k, stripDelete v) :: stripDeleteEntries rest

def stripDeleteList : List Val → List Val
  | [] => []
  | v :: rest => stripDelete v :: stripDeleteList rest

end

/-- Compatibility of an overlay dict with a base dict: wherever the overlay
holds a dict under a key that the base also has, the base's value is again a
dict, recursively (the overlay's nested dict taken after its `_delete_`
pop).  This is the condition under which `merge_a_into_b` runs without
raising. -/
def compatGo (a : Entries) (bd : Entries) : Bool :=
  match a with
  | [] => true
  | (k, v) :: rest =>
    (match v with
     | .vdict d =>
       if hasKey bd k then
         match getV bd k with
         | .vdict bd2 => compatGo (eraseKey d "_delete_") bd2
         | _ => false
       else true
     | _ => true) && compatGo rest bd
termination_by sizeOf a
decreasing_by
  all_goals (simp; try omega)
  have h9 := sizeOf_eraseKey_le d "_delete_"
  omega

/-- Keys of an association list are pairwise distinct — every Python dict
satisfies this. -/
def NodupKeys (l : Entries) : Prop := (l.map Prod.fst).Nodup

mutual

/-- Every dict anywhere inside the value has pairwise distinct keys; true
of every value produced by Python dict/list/tuple literals and parsers. -/
def wfVal : Val → Bool
  | .vdict es => wfEntries es
  | .vlist xs => wfList xs
  | .vtuple xs => wfList xs
  | _ => true

def wfEntries : Entries → Bool
  | [] => true
  | (k, v) :: rest => !(hasKey rest k) && wfVal v && wfEntries rest

def wfList : List Val → Bool
  | [] => true
  | v :: rest => wfVal v && wfList rest

end

mutual

/-- Every dict anywhere inside the value that has a `type` key holds a
string there. -/
def typesAreStrings : Val → Bool
  | .vdict es =>
    (match lookupV es "type" with
     | some (.vstr _) => true
     | some _ => false
     | none => true) && typesEntries es
  | .vlist xs => typesList xs
  | .vtuple xs => typesList xs
  | _ => true

def typesEntries : Entries → Bool
  | [] => true
  | (_, v) :: rest => typesAreStrings v && typesEntries rest

def typesList : List Val → Bool
  | [] => true
  | v :: rest => typesAreStrings v && typesList rest

end

mutual

/-- No dict anywhere inside the value has a `type` key. -/
def noTypeKey : Val → Bool
  | .vdict es => !(hasKey es "type") && noTypeEntries es
  | .vlist xs => noTypeList xs
  | .vtuple xs => noTypeList xs
  | _ => true

def noTypeEntries : Entries → Bool
  | [] => true
  | (_, v) :: rest => noTypeKey v && noTypeEntries rest

def noTypeList : List Val → Bool
  | [] => true
  | v :: rest => noTypeKey v && noTypeList rest

end

/-- True exactly on dict values (`isinstance(v, dict)`). -/
def isDict : Val → Bool
  | .vdict _ => true
  | _ => false

theorem lookupV_nil (k : String) : lookupV [] k = none := rfl

theorem lookupV_cons (p : String × Val) (rest : Entries) (k : String) :
    lookupV (p :: rest) k = if p.1 = k then some p.2 else lookupV rest k := by
  by_cases h : p.1 = k
  · simp [lookupV, List.find?, beq_iff_eq.mpr h, h]
  · simp [lookupV, List.find?, beq_eq_false_iff_ne.mpr h, h]

theorem hasKey_nil (k : String) : hasKey [] k = false := rfl

theorem hasKey_cons (p : String × Val) (rest : Entries) (k : String) :
    hasKey (p :: rest) k = (decide (p.1 = k) || hasKey rest k) := by
  by_cases h : p.1 = k <;> simp [hasKey, h]

theorem hasKey_eq_isSome (l : Entries) (k : String) :
    hasKey l k = (lookupV l k).isSome := by
  induction l with
  | nil => rfl
  | cons p rest ih =>
    rw [hasKey_cons, lookupV_cons]
    by_cases h : p.1 = k <;> simp [h, ih]

theorem hasKey_false_iff (l : Entries) (k : String) :
    hasKey l k = false ↔ k ∉ l.map Prod.fst := by
  induction l with
  | nil => simp [hasKey]
  | cons p rest ih =>
    rw [hasKey_cons]
    by_cases hp : p.1 = k
    · simp [hp]
    · simp only [decide_eq_false hp, Bool.false_or, ih, List.map_cons, List.mem_cons]
      constructor
      · intro h hmem
        rcases hmem with he | hm
        · exact hp he.symm
        · exact h hm
      · intro h hm
        exact h (Or.inr hm)

theorem lookupV_mapSet_self (l : Entries) (k : String) (v : Val)
    (h : hasKey l k = true) :
    lookupV (l.map (fun p => if p.1 = k then (p.1, v) else p)) k = some v := by
  induction l with
  | nil => simp [hasKey] at h
  | cons p rest ih =>
    rw [hasKey_cons] at h
    by_cases hp : p.1 = k
    · simp [List.map_cons, if_pos hp, lookupV_cons, hp]
    · rw [List.map_cons, if_neg hp, lookupV_cons, if_neg hp]
      exact ih (by simpa [decide_eq_false hp] using h)

theorem lookupV_mapSet_ne (l : Entries) (k : String) (v : Val) (k' : String)
    (hne : k' ≠ k) :
    lookupV (l.map (fun p => if p.1 = k then (p.1, v) else p)) k' = lookupV l k' := by
  induction l with
  | nil => simp
  | cons p rest ih =>
    by_cases hp : p.1 = k
    · have hp' : p.1 ≠ k' := by rw [hp]; exact fun he => hne he.symm
      rw [List.map_cons, if_pos hp, lookupV_cons, lookupV_cons, if_neg hp', if_neg hp']
      exact ih
    · rw [List.map_cons, if_neg hp, lookupV_cons, lookupV_cons]
      by_cases hq : p.1 = k' <;> simp [hq]
      exact ih

theorem lookupV_appendSet_self (l : Entries) (k : String) (v : Val)
    (h : k ∉ l.map Prod.fst) :
    lookupV (l ++ [(k, v)]) k = some v := by
  induction l with
  | nil => simp [lookupV_cons]
  | cons p rest ih =>
    simp only [List.map_cons, List.mem_cons] at h
    push_neg at h
    rw [List.cons_append, lookupV_cons, if_neg (fun he => h.1 he.symm)]
    exact ih h.2

theorem lookupV_appendSet_ne (l : Entries) (k : String) (v : Val) (k' : String)
    (hne : k' ≠ k) :
    lookupV (l ++ [(k, v)]) k' = lookupV l k' := by
  induction l with
  | nil => rw [List.nil_append, lookupV_cons, if_neg fun he => hne he.symm]
  | cons p rest ih =>
    rw [List.cons_append, lookupV_cons, lookupV_cons]
    by_cases hq : p.1 = k' <;> simp [hq]
    exact ih

theorem lookupV_setKey_self (l : Entries) (k : String) (v : Val) :
    lookupV (setKey l k v) k = some v := by
  unfold setKey
  by_cases h : hasKey l k = true
  · rw [if_pos h]
    exact lookupV_mapSet_self l k v h
  · rw [if_neg h]
    exact lookupV_appendSet_self l k v
      ((hasKey_false_iff l k).mp (Bool.eq_false_iff.mpr h))

theorem lookupV_setKey_ne (l : Entries) (k : String) (v : Val) (k' : String)
    (hne : k' ≠ k) : lookupV (setKey l k v) k' = lookupV l k' := by
  unfold setKey
  by_cases h : hasKey l k = true
  · rw [if_pos h]
    exact lookupV_mapSet_ne l k v k' hne
  · rw [if_neg h]
    exact lookupV_appendSet_ne l k v k' hne

theorem hasKey_setKey_ne (l : Entries) (k : String) (v : Val) (k' : String)
    (hne : k' ≠ k) : hasKey (setKey l k v) k' = hasKey l k' := by
  rw [hasKey_eq_isSome, hasKey_eq_isSome, lookupV_setKey_ne l k v k' hne]

theorem getV_setKey_ne (l : Entries) (k : String) (v : Val) (k' : String)
    (hne : k' ≠ k) : getV (setKey l k v) k' = getV l k' := by
  rw [getV, getV, lookupV_setKey_ne l k v k' hne]

theorem keys_setKey_of_hasKey (l : Entries) (k : String) (v : Val)
    (h : hasKey l k = true) : (setKey l k v).map Prod.fst = l.map Prod.fst := by
  unfold setKey
  simp only [h, if_true, List.map_map]
  apply List.map_congr_left
  intro p _
  by_cases hp : p.1 = k <;> simp [hp]

theorem NodupKeys_setKey (l : Entries) (k : String) (v : Val)
    (h : NodupKeys l) : NodupKeys (setKey l k v) := by
  by_cases hk : hasKey l k = true
  · unfold NodupKeys
    rw [keys_setKey_of_hasKey l k v hk]
    exact h
  · unfold NodupKeys setKey
    rw [if_neg hk]
    simp only [List.map_append, List.map_cons, List.map_nil]
    rw [List.nodup_append]
    refine ⟨h, List.nodup_singleton _, ?_⟩
    intro x hx hx'
    rw [List.mem_singleton] at hx'
    exact (hasKey_false_iff l k).mp (Bool.eq_false_iff.mpr hk) (hx' ▸ hx)

/-- True exactly on list values (`isinstance(v, list)`). -/
def isList : Val → Bool
  | .vlist _ => true
  | _ => false

theorem isDict_iff (v : Val) : isDict v = true ↔ ∃ d, v = .vdict d := by
  cases v <;> simp [isDict]

theorem mergeGo_nil (bd : Entries) : mergeGo [] bd = (.ok bd, []) := by
  rw [mergeGo.eq_def]

theorem mergeRun_dict (a : Entries) (bd : Entries) :
    mergeRun a (.vdict bd) = ((mergeGo a bd).1.map Val.vdict, (mergeGo a bd).2) := by
  rw [mergeRun.eq_def]

theorem mergeRun_list_nil (xs : List Val) :
    mergeRun [] (.vlist xs) = (.ok (.vlist xs), []) := by
  rw [mergeRun.eq_def]

theorem mergeRun_list_cons (p : String × Val) (a : Entries) (xs : List Val) :
    mergeRun (p :: a) (.vlist xs) = (.error (), p :: a) := by
  rw [mergeRun.eq_def]

theorem mergeRun_scalar (a : Entries) (b : Val)
    (h1 : isDict b = false) (h2 : isList b = false) :
    mergeRun a b = (.error (), a) := by
  cases b <;> simp [isDict, isList] at h1 h2 <;> rw [mergeRun.eq_def]

theorem mergeGo_cons_dict_present (k : String) (d rest bd : Entries)
    (h : hasKey bd k = true) :
    mergeGo ((k, .vdict d) :: rest) bd =
      match mergeRun (eraseKey d "_delete_") (getV bd k) with
      | (.error _, dPost) => (.error (), (k, .vdict dPost) :: rest)
      | (.ok w, dPost) =>
        ((mergeGo rest (setKey bd k w)).1,
         (k, .vdict dPost) :: (mergeGo rest (setKey bd k w)).2) := by
  rw [mergeGo.eq_def]
  simp only [h, if_true]

theorem mergeGo_cons_dict_absent (k : String) (d rest bd : Entries)
    (h : hasKey bd k = false) :
    mergeGo ((k, .vdict d) :: rest) bd =
      ((mergeGo rest (setKey bd k (.vdict d))).1,
       (k, .vdict d) :: (mergeGo rest (setKey bd k (.vdict d))).2) := by
  rw [mergeGo.eq_def]
  simp only [h, Bool.false_eq_true, if_false]

theorem mergeGo_cons_nondict (k : String) (v : Val) (rest bd : Entries)
    (h : isDict v = false) :
    mergeGo ((k, v) :: rest) bd =
      ((mergeGo rest (setKey bd k v)).1,
       (k, v) :: (mergeGo rest (setKey bd k v)).2) := by
  cases v <;> simp [isDict] at h <;> rw [mergeGo.eq_def]

theorem NodupKeys_cons (k₀ : String) (v₀ : Val) (rest : Entries)
    (h : NodupKeys ((k₀, v₀) :: rest)) :
    hasKey rest k₀ = false ∧ NodupKeys rest := by
  unfold NodupKeys at h
  rw [List.map_cons, List.nodup_cons] at h
  exact ⟨(hasKey_false_iff rest k₀).mpr h.1, h.2⟩

/-- Core correctness of the merge loop on overlays with distinct keys: when
the loop returns `m`, (1) keys absent from the overlay keep the base's
binding, (2) a nested-dict overlay value whose key exists in the base is
replaced by the recursive merge of its `_delete_`-popped form into the
base's value, and (3) any other overlay binding ends up in the result
verbatim. -/
theorem mergeGo_ok_spec (a : Entries) (ha : NodupKeys a) :
    ∀ (bd m : Entries), (mergeGo a bd).1 = .ok m →
      (∀ k, hasKey a k = false → lookupV m k = lookupV bd k) ∧
      (∀ k d, lookupV a k = some (.vdict d) → hasKey bd k = true →
        ∃ w, (mergeRun (eraseKey d "_delete_") (getV bd k)).1 = .ok w ∧
          lookupV m k = some w) ∧
      (∀ k v, lookupV a k = some v → (isDict v = false ∨ hasKey bd k = false) →
        lookupV m k = some v) := by
  induction a with
  | nil =>
    intro bd m h
    rw [mergeGo_nil] at h
    simp at h
    subst h
    refine ⟨fun k _ => rfl, ?_, ?_⟩
    · intro k d hl
      rw [lookupV_nil] at hl
      exact absurd hl (by simp)
    · intro k v hl
      rw [lookupV_nil] at hl
      exact absurd hl (by simp)
  | cons p rest ih =>
    obtain ⟨k₀, v₀⟩ := p
    intro bd m h
    obtain ⟨hk₀, hnrest⟩ := NodupKeys_cons k₀ v₀ rest ha
    have ihr := ih hnrest
    by_cases hdict : isDict v₀ = true
    · obtain ⟨d, rfl⟩ := (isDict_iff v₀).mp hdict
      by_cases hb : hasKey bd k₀ = true
      · rw [mergeGo_cons_dict_present k₀ d rest bd hb] at h
        rcases hrun : mergeRun (eraseKey d "_delete_") (getV bd k₀) with ⟨r, dPost⟩
        rw [hrun] at h
        cases r with
        | error e => simp at h
        | ok w =>
          simp only at h
          obtain ⟨S1, S2, S3⟩ := ihr (setKey bd k₀ w) m h
          refine ⟨?_, ?_, ?_⟩
          · intro k hk
            rw [hasKey_cons] at hk
            have hne : k₀ ≠ k := by
              intro he
              simp [he] at hk
            have hrk : hasKey rest k = false := by
              cases hq : hasKey rest k
              · rfl
              · simp [hq] at hk
            rw [S1 k hrk, lookupV_setKey_ne bd k₀ w k (fun he => hne he.symm)]
          · intro k d' hl hbk
            rw [lookupV_cons] at hl
            by_cases hek : k₀ = k
            · subst hek
              simp at hl
              subst hl
              refine ⟨w, by rw [hrun], ?_⟩
              rw [S1 k₀ hk₀, lookupV_setKey_self]
            · rw [if_neg hek] at hl
              have hbk' : hasKey (setKey bd k₀ w) k = true := by
                rw [hasKey_setKey_ne bd k₀ w k (fun he => hek he.symm)]
                exact hbk
              obtain ⟨w', hw1, hw2⟩ := S2 k d' hl hbk'
              rw [getV_setKey_ne bd k₀ w k (fun he => hek he.symm)] at hw1
              exact ⟨w', hw1, hw2⟩
          · intro k v hl hor
            rw [lookupV_cons] at hl
            by_cases hek : k₀ = k
            · subst hek
              simp at hl
              subst hl
              rcases hor with hd | hbk
              · simp [isDict] at hd
              · rw [hbk] at hb
                simp at hb
            · rw [if_neg hek] at hl
              have hor' : isDict v = false ∨ hasKey (setKey bd k₀ w) k = false := by
                rcases hor with hd | hbk
                · exact Or.inl hd
                · exact Or.inr (by
                    rw [hasKey_setKey_ne bd k₀ w k (fun he => hek he.symm)]
                    exact hbk)
              exact S3 k v hl hor'
      · have hbf : hasKey bd k₀ = false := by
          cases hq : hasKey bd k₀
          · rfl
          · exact absurd hq hb
        rw [mergeGo_cons_dict_absent k₀ d rest bd hbf] at h
        simp only at h
        obtain ⟨S1, S2, S3⟩ := ihr (setKey bd k₀ (.vdict d)) m h
        refine ⟨?_, ?_, ?_⟩
        · intro k hk
          rw [hasKey_cons] at hk
          have hne : k₀ ≠ k := by
            intro he
            simp [he] at hk
          have hrk : hasKey rest k = false := by
            cases hq : hasKey rest k
            · rfl
            · simp [hq] at hk
          rw [S1 k hrk, lookupV_setKey_ne bd k₀ (.vdict d) k (fun he => hne he.symm)]
        · intro k d' hl hbk
          rw [lookupV_cons] at hl
          by_cases hek : k₀ = k
          · subst hek
            rw [hbk] at hbf
            simp at hbf
          · rw [if_neg hek] at hl
            have hbk' : hasKey (setKey bd k₀ (.vdict d)) k = true := by
              rw [hasKey_setKey_ne bd k₀ (.vdict d) k (fun he => hek he.symm)]
              exact hbk
            obtain ⟨w', hw1, hw2⟩ := S2 k d' hl hbk'
            rw [getV_setKey_ne bd k₀ (.vdict d) k (fun he => hek he.symm)] at hw1
            exact ⟨w', hw1, hw2⟩
        · intro k v hl hor
          rw [lookupV_cons] at hl
          by_cases hek : k₀ = k
          · subst hek
            simp at hl
            subst hl
            rw [S1 k₀ hk₀, lookupV_setKey_self]
          · rw [if_neg hek] at hl
            have hor' : isDict v = false ∨ hasKey (setKey bd k₀ (.vdict d)) k = false := by
              rcases hor with hd | hbk
              · exact Or.inl hd
              · exact Or.inr (by
                  rw [hasKey_setKey_ne bd k₀ (.vdict d) k (fun he => hek he.symm)]
                  exact hbk)
            exact S3 k v hl hor'
    · have hdf : isDict v₀ = false := by
        cases hq : isDict v₀
        · rfl
        · exact absurd hq hdict
      rw [mergeGo_cons_nondict k₀ v₀ rest bd hdf] at h
      simp only at h
      obtain ⟨S1, S2, S3⟩ := ihr (setKey bd k₀ v₀) m h
      refine ⟨?_, ?_, ?_⟩
      · intro k hk
        rw [hasKey_cons] at hk
        have hne : k₀ ≠ k := by
          intro he
          simp [he] at hk
        have hrk : hasKey rest k = false := by
          cases hq : hasKey rest k
          · rfl
          · simp [hq] at hk
        rw [S1 k hrk, lookupV_setKey_ne bd k₀ v₀ k (fun he => hne he.symm)]
      · intro k d' hl hbk
        rw [lookupV_cons] at hl
        by_cases hek : k₀ = k
        · subst hek
          simp at hl
          rw [hl] at hdf
          simp [isDict] at hdf
        · rw [if_neg hek] at hl
          have hbk' : hasKey (setKey bd k₀ v₀) k = true := by
            rw [hasKey_setKey_ne bd k₀ v₀ k (fun he => hek he.symm)]
            exact hbk
          obtain ⟨w', hw1, hw2⟩ := S2 k d' hl hbk'
          rw [getV_setKey_ne bd k₀ v₀ k (fun he => hek he.symm)] at hw1
          exact ⟨w', hw1, hw2⟩
      · intro k v hl hor
        rw [lookupV_cons] at hl
        by_cases hek : k₀ = k
        · subst hek
          simp at hl
          subst hl
          rw [S1 k₀ hk₀, lookupV_setKey_self]
        · rw [if_neg hek] at hl
          have hor' : isDict v = false ∨ hasKey (setKey bd k₀ v₀) k = false := by
            rcases hor with hd | hbk
            · exact Or.inl hd
            · exact Or.inr (by
                rw [hasKey_setKey_ne bd k₀ v₀ k (fun he => hek he.symm)]
                exact hbk)
          exact S3 k v hl hor'

instance exceptDecEq {ε α : Type} [DecidableEq ε] [DecidableEq α] :
    DecidableEq (Except ε α) := fun a b =>
  match a, b with
  | .ok x, .ok y =>
    if h : x = y then .isTrue (by rw [h]) else .isFalse (by simp [h])
  | .error x, .error y =>
    if h : x = y then .isTrue (by rw [h]) else .isFalse (by simp [h])
  | .ok _, .error _ => .isFalse (by simp)
  | .error _, .ok _ => .isFalse (by simp)

theorem entriesSize_pos (l : Entries) : 1 ≤ entriesSize l := by
  cases l with
  | nil => simp [entriesSize]
  | cons p rest =>
    obtain ⟨k, v⟩ := p
    simp [entriesSize]
    omega

theorem entriesSize_eraseKey_le (l : Entries) (k : String) :
    entriesSize (eraseKey l k) ≤ entriesSize l := by
  induction l with
  | nil => simp [eraseKey]
  | cons p rest ih =>
    simp only [eraseKey, List.filter] at ih ⊢
    obtain ⟨k1, v1⟩ := p
    cases hc : (!(k1 == k))
    · simp only []
      simp [entriesSize]
      omega
    · simp only []
      simp [entriesSize] at ih ⊢
      omega

theorem mergeRun_as_inner (d : Entries) (g : Val) :
    mergeRun (eraseKey d "_delete_") g =
      (match g with
       | .vdict bd2 =>
         let rp := mergeGo (eraseKey d "_delete_") bd2
         ((rp.1).map Val.vdict, rp.2)
       | .vlist xs =>
         match eraseKey d "_delete_" with
         | [] => (.ok (.vlist xs), ([] : Entries))
         | e :: es => (.error (), e :: es)
       | _ => ((.error () : Except Unit Val), eraseKey d "_delete_")) := by
  cases g with
  | vdict bd2 => rw [mergeRun_dict]
  | vlist xs =>
    cases he : eraseKey d "_delete_" with
    | nil => rw [mergeRun_list_nil]
    | cons e es => rw [mergeRun_list_cons]
  | vnone => rw [mergeRun_scalar (eraseKey d "_delete_") Val.vnone rfl rfl]
  | vbool b' => rw [mergeRun_scalar (eraseKey d "_delete_") (Val.vbool b') rfl rfl]
  | vint n' => rw [mergeRun_scalar (eraseKey d "_delete_") (Val.vint n') rfl rfl]
  | vfloat m' e' => rw [mergeRun_scalar (eraseKey d "_delete_") (Val.vfloat m' e') rfl rfl]
  | vstr s' => rw [mergeRun_scalar (eraseKey d "_delete_") (Val.vstr s') rfl rfl]
  | vtuple xs => rw [mergeRun_scalar (eraseKey d "_delete_") (Val.vtuple xs) rfl rfl]

theorem mergeGoF_eq_mergeGo (fuel : Nat) :
    ∀ (a bd : Entries), entriesSize a ≤ fuel → mergeGoF fuel a bd = mergeGo a bd := by
  induction fuel with
  | zero =>
    intro a bd h
    have := entriesSize_pos a
    omega
  | succ fuel ih =>
    intro a bd h
    cases a with
    | nil => rw [mergeGoF, mergeGo_nil]
    | cons p rest =>
      obtain ⟨k, v⟩ := p
      have hsz : entriesSize ((k, v) :: rest) = 1 + (1 + 1 + valSize v) + entriesSize rest := rfl
      have hrest : entriesSize rest ≤ fuel := by
        have hv0 : 1 ≤ entriesSize rest := entriesSize_pos rest
        omega
      by_cases hbd : ∃ d, v = Val.vdict d
      · obtain ⟨d, rfl⟩ := hbd
        have hd : valSize (.vdict d) = 1 + entriesSize d := rfl
        have hdsz : entriesSize (eraseKey d "_delete_") ≤ fuel := by
          have h1 := entriesSize_eraseKey_le d "_delete_"
          rw [hd] at hsz
          omega
        by_cases hb : hasKey bd k = true
        · rw [mergeGo_cons_dict_present k d rest bd hb, mergeGoF]
          simp only [hb, if_true]
          rw [show (match getV bd k with
              | .vdict bd2 =>
                let rp := mergeGoF fuel (eraseKey d "_delete_") bd2
                ((rp.1).map Val.vdict, rp.2)
              | .vlist xs =>
                match eraseKey d "_delete_" with
                | [] => (.ok (.vlist xs), ([] : Entries))
                | e :: es => (.error (), e :: es)
              | _ => ((.error () : Except Unit Val), eraseKey d "_delete_")) =
              mergeRun (eraseKey d "_delete_") (getV bd k) from ?_]
          · cases hr : mergeRun (eraseKey d "_delete_") (getV bd k) with
            | mk r dPost =>
              cases r with
              | error e => rfl
              | ok w => simp only [ih rest (setKey bd k w) hrest]
          · rw [mergeRun_as_inner d (getV bd k)]
            cases getV bd k with
            | vdict bd2 => simp only [ih (eraseKey d "_delete_") bd2 hdsz]
            | vlist xs => rfl
            | vnone => rfl
            | vbool b' => rfl
            | vint n' => rfl
            | vfloat m' e' => rfl
            | vstr s' => rfl
            | vtuple xs => rfl
        · have hbf : hasKey bd k = false := Bool.eq_false_iff.mpr hb
          rw [mergeGo_cons_dict_absent k d rest bd hbf, mergeGoF]
          simp only [hbf, Bool.false_eq_true, if_false,
            ih rest (setKey bd k (.vdict d)) hrest]
      · cases v with
        | vdict d => exact absurd ⟨d, rfl⟩ hbd
        | vnone =>
          rw [mergeGo_cons_nondict k Val.vnone rest bd rfl,
            ← ih rest (setKey bd k Val.vnone) hrest]
          rfl
        | vbool b' =>
          rw [mergeGo_cons_nondict k (Val.vbool b') rest bd rfl,
            ← ih rest (setKey bd k (Val.vbool b')) hrest]
          rfl
        | vint n' =>
          rw [mergeGo_cons_nondict k (Val.vint n') rest bd rfl,
            ← ih rest (setKey bd k (Val.vint n')) hrest]
          rfl
        | vfloat m' e' =>
          rw [mergeGo_cons_nondict k (Val.vfloat m' e') rest bd rfl,
            ← ih rest (setKey bd k (Val.vfloat m' e')) hrest]
          rfl
        | vstr s' =>
          rw [mergeGo_cons_nondict k (Val.vstr s') rest bd rfl,
            ← ih rest (setKey bd k (Val.vstr s')) hrest]
          rfl
        | vlist xs =>
          rw [mergeGo_cons_nondict k (Val.vlist xs) rest bd rfl,
            ← ih rest (setKey bd k (Val.vlist xs)) hrest]
          rfl
        | vtuple xs =>
          rw [mergeGo_cons_nondict k (Val.vtuple xs) rest bd rfl,
            ← ih rest (setKey bd k (Val.vtuple xs)) hrest]
          rfl

theorem mergeGoC_eq (a bd : Entries) : mergeGoC a bd = mergeGo a bd :=
  mergeGoF_eq_mergeGo (entriesSize a) a bd (Nat.le_refl _)

theorem mergeRunC_eq (a : Entries) (b : Val) : mergeRunC a b = mergeRun a b := by
  cases b with
  | vdict bd =>
    rw [mergeRun_dict]
    show ((mergeGoC a bd).1.map Val.vdict, (mergeGoC a bd).2) = _
    rw [mergeGoC_eq]
  | vlist xs =>
    cases a with
    | nil => rw [mergeRun_list_nil]; rfl
    | cons p rest => rw [mergeRun_list_cons]; rfl
  | vnone =>
    rw [mergeRun_scalar a Val.vnone rfl rfl]
    rfl
  | vbool b' =>
    rw [mergeRun_scalar a (Val.vbool b') rfl rfl]
    rfl
  | vint n' =>
    rw [mergeRun_scalar a (Val.vint n') rfl rfl]
    rfl
  | vfloat m' e' =>
    rw [mergeRun_scalar a (Val.vfloat m' e') rfl rfl]
    rfl
  | vstr s' =>
    rw [mergeRun_scalar a (Val.vstr s') rfl rfl]
    rfl
  | vtuple xs =>
    rw [mergeRun_scalar a (Val.vtuple xs) rfl rfl]
    rfl

theorem merge_a_into_bC_eq (a b : Val) : merge_a_into_bC a b = merge_a_into_b a b := by
  cases a with
  | vdict ad =>
    show (mergeRunC ad b).1 = (mergeRun ad b).1
    rw [mergeRunC_eq]
  | vnone => rfl
  | vbool b' => rfl
  | vint n' => rfl
  | vfloat m' e' => rfl
  | vstr s' => rfl
  | vlist xs => rfl
  | vtuple xs => rfl

theorem merge_a_into_b_postAC_eq (a b : Val) :
    merge_a_into_b_postAC a b = merge_a_into_b_postA a b := by
  cases a with
  | vdict ad =>
    show Val.vdict (mergeRunC ad b).2 = Val.vdict (mergeRun ad b).2
    rw [mergeRunC_eq]
  | vnone => rfl
  | vbool b' => rfl
  | vint n' => rfl
  | vfloat m' e' => rfl
  | vstr s' => rfl
  | vlist xs => rfl
  | vtuple xs => rfl

theorem mergeGo_ok_NodupKeys (a : Entries) :
    ∀ bd m, NodupKeys bd → (mergeGo a bd).1 = .ok m → NodupKeys m := by
  induction a with
  | nil =>
    intro bd m hn h
    rw [mergeGo_nil] at h
    simp at h
    rw [← h]
    exact hn
  | cons p rest ih =>
    obtain ⟨k, v⟩ := p
    intro bd m hn h
    by_cases hbd : ∃ d, v = Val.vdict d
    · obtain ⟨d, rfl⟩ := hbd
      by_cases hb : hasKey bd k = true
      · rw [mergeGo_cons_dict_present k d rest bd hb] at h
        rcases hr : mergeRun (eraseKey d "_delete_") (getV bd k) with ⟨r, dPost⟩
        rw [hr] at h
        cases r with
        | error e => simp at h
        | ok w =>
          simp only at h
          exact ih (setKey bd k w) m (NodupKeys_setKey bd k w hn) h
      · have hbf : hasKey bd k = false := Bool.eq_false_iff.mpr hb
        rw [mergeGo_cons_dict_absent k d rest bd hbf] at h
        simp only at h
        exact ih _ m (NodupKeys_setKey bd k _ hn) h
    · have hdf : isDict v = false := by
        cases v
        case vdict es => exact absurd ⟨es, rfl⟩ hbd
        all_goals rfl
      rw [mergeGo_cons_nondict k v rest bd hdf] at h
      simp only at h
      exact ih _ m (NodupKeys_setKey bd k v hn) h

theorem lookupV_eraseKey_ne (l : Entries) (k0 k : String) (hne : k ≠ k0) :
    lookupV (eraseKey l k0) k = lookupV l k := by
  induction l with
  | nil => rfl
  | cons p rest ih =>
    by_cases hp : p.1 = k0
    · have h1 : (!(p.1 == k0)) = false := by simp [hp]
      simp only [eraseKey, List.filter, h1]
      rw [lookupV_cons, if_neg (fun he => hne (he.symm.trans hp))]
      simp only [eraseKey] at ih
      exact ih
    · have h1 : (!(p.1 == k0)) = true := by simp [hp]
      simp only [eraseKey, List.filter, h1]
      rw [lookupV_cons, lookupV_cons]
      by_cases hq : p.1 = k
      · rw [if_pos hq, if_pos hq]
      · rw [if_neg hq, if_neg hq]
        simp only [eraseKey] at ih
        exact ih

theorem hasKey_eraseKey_self (l : Entries) (k0 : String) :
    hasKey (eraseKey l k0) k0 = false := by
  induction l with
  | nil => rfl
  | cons p rest ih =>
    by_cases hp : p.1 = k0
    · have h1 : (!(p.1 == k0)) = false := by simp [hp]
      simp only [eraseKey, List.filter, h1]
      simp only [eraseKey] at ih
      exact ih
    · have h1 : (!(p.1 == k0)) = true := by simp [hp]
      simp only [eraseKey, List.filter, h1]
      rw [hasKey_cons, decide_eq_false hp]
      simp only [eraseKey] at ih
      simp [ih]

theorem hasKey_eraseKey_ne (l : Entries) (k0 k : String) (hne : k ≠ k0) :
    hasKey (eraseKey l k0) k = hasKey l k := by
  rw [hasKey_eq_isSome, hasKey_eq_isSome, lookupV_eraseKey_ne l k0 k hne]

theorem hasKey_eraseKey_false (l : Entries) (k0 k : String)
    (h : hasKey l k = false) : hasKey (eraseKey l k0) k = false := by
  by_cases hk : k = k0
  · rw [hk]
    exact hasKey_eraseKey_self l k0
  · rw [hasKey_eraseKey_ne l k0 k hk]
    exact h

theorem NodupKeys_eraseKey (l : Entries) (k0 : String)
    (h : NodupKeys l) : NodupKeys (eraseKey l k0) := by
  unfold NodupKeys at h ⊢
  unfold eraseKey
  exact ((List.filter_sublist l).map Prod.fst).nodup h

theorem wfVal_vdict (d : Entries) : wfVal (.vdict d) = wfEntries d := rfl

theorem wfEntries_cons_parts (k : String) (v : Val) (rest : Entries)
    (h : wfEntries ((k, v) :: rest) = true) :
    hasKey rest k = false ∧ wfVal v = true ∧ wfEntries rest = true := by
  rw [wfEntries] at h
  simp only [Bool.and_eq_true, Bool.not_eq_true'] at h
  exact ⟨h.1.1, h.1.2, h.2⟩

theorem wfEntries_eraseKey (l : Entries) (k0 : String)
    (h : wfEntries l = true) : wfEntries (eraseKey l k0) = true := by
  induction l with
  | nil => rfl
  | cons p rest ih =>
    obtain ⟨k, v⟩ := p
    obtain ⟨h1, h2, h3⟩ := wfEntries_cons_parts k v rest h
    by_cases hp : k = k0
    · have hc : (!(k == k0)) = false := by simp [hp]
      simp only [eraseKey, List.filter, hc]
      simp only [eraseKey] at ih
      exact ih h3
    · have hc : (!(k == k0)) = true := by simp [hp]
      simp only [eraseKey, List.filter, hc]
      rw [wfEntries]
      simp only [Bool.and_eq_true, Bool.not_eq_true']
      refine ⟨⟨?_, h2⟩, ?_⟩
      · show hasKey (eraseKey rest k0) k = false
        exact hasKey_eraseKey_false rest k0 k h1
      · simp only [eraseKey] at ih
        exact ih h3

theorem wfEntries_NodupKeys (l : Entries) (h : wfEntries l = true) :
    NodupKeys l := by
  induction l with
  | nil => exact List.nodup_nil
  | cons p rest ih =>
    obtain ⟨k, v⟩ := p
    obtain ⟨h1, _, h3⟩ := wfEntries_cons_parts k v rest h
    unfold NodupKeys
    rw [List.map_cons, List.nodup_cons]
    exact ⟨(hasKey_false_iff rest k).mp h1, ih h3⟩

theorem noDeleteEntries_cons_parts (k : String) (v : Val) (rest : Entries)
    (h : noDeleteEntries ((k, v) :: rest) = true) :
    (k == "_delete_") = false ∧ noDelete v = true ∧ noDeleteEntries rest = true := by
  rw [noDeleteEntries] at h
  simp only [Bool.and_eq_true, Bool.not_eq_true'] at h
  exact ⟨h.1.1, h.1.2, h.2⟩

theorem eraseKey_delete_of_noDelete (l : Entries)
    (h : noDeleteEntries l = true) : eraseKey l "_delete_" = l := by
  induction l with
  | nil => rfl
  | cons p rest ih =>
    obtain ⟨k, v⟩ := p
    obtain ⟨h1, _, h3⟩ := noDeleteEntries_cons_parts k v rest h
    have hc : (!(k == "_delete_")) = true := by simp [h1]
    simp only [eraseKey, List.filter, hc]
    simp only [eraseKey] at ih
    rw [ih h3]

/-- When the overlay contains no `_delete_` key anywhere, the merge leaves
its first argument untouched (there is nothing to pop). -/
theorem merge_post_of_noDelete :
    ∀ (n : Nat) (a : Entries), entriesSize a ≤ n → noDeleteEntries a = true →
      (∀ bd, (mergeGo a bd).2 = a) ∧ (∀ b, (mergeRun a b).2 = a) := by
  intro n
  induction n with
  | zero =>
    intro a h
    have := entriesSize_pos a
    omega
  | succ n ih =>
    intro a hsz hnd
    have G : ∀ bd, (mergeGo a bd).2 = a := by
      intro bd
      cases a with
      | nil => rw [mergeGo_nil]
      | cons p rest =>
        obtain ⟨k, v⟩ := p
        obtain ⟨h1, h2, h3⟩ := noDeleteEntries_cons_parts k v rest hnd
        have hszc : entriesSize ((k, v) :: rest) =
            1 + (1 + 1 + valSize v) + entriesSize rest := rfl
        have hrest : entriesSize rest ≤ n := by
          have := entriesSize_pos rest
          omega
        by_cases hbd : ∃ d, v = Val.vdict d
        · obtain ⟨d, rfl⟩ := hbd
          have hd2 : noDeleteEntries d = true := h2
          have hdn : entriesSize d ≤ n := by
            have hx : valSize (Val.vdict d) = 1 + entriesSize d := rfl
            omega
          have her : eraseKey d "_delete_" = d := eraseKey_delete_of_noDelete d hd2
          by_cases hb : hasKey bd k = true
          · rw [mergeGo_cons_dict_present k d rest bd hb, her]
            rcases hr : mergeRun d (getV bd k) with ⟨r, dPost⟩
            have hdp : dPost = d := by
              have := (ih d hdn hd2).2 (getV bd k)
              rw [hr] at this
              exact this
            cases r with
            | error e => simp [hdp]
            | ok w =>
              simp only [hdp]
              rw [(ih rest hrest h3).1 (setKey bd k w)]
          · have hbf : hasKey bd k = false := Bool.eq_false_iff.mpr hb
            rw [mergeGo_cons_dict_absent k d rest bd hbf]
            simp only
            rw [(ih rest hrest h3).1 (setKey bd k (.vdict d))]
        · have hdf : isDict v = false := by
            cases v
            case vdict es => exact absurd ⟨es, rfl⟩ hbd
            all_goals rfl
          rw [mergeGo_cons_nondict k v rest bd hdf]
          simp only
          rw [(ih rest hrest h3).1 (setKey bd k v)]
    refine ⟨G, ?_⟩
    intro b
    cases b with
    | vdict bd =>
      rw [mergeRun_dict]
      exact G bd
    | vlist xs =>
      cases a with
      | nil => rw [mergeRun_list_nil]
      | cons p rest => rw [mergeRun_list_cons]
    | vnone => rw [mergeRun_scalar a Val.vnone rfl rfl]
    | vbool b' => rw [mergeRun_scalar a (Val.vbool b') rfl rfl]
    | vint n' => rw [mergeRun_scalar a (Val.vint n') rfl rfl]
    | vfloat m' e' => rw [mergeRun_scalar a (Val.vfloat m' e') rfl rfl]
    | vstr s' => rw [mergeRun_scalar a (Val.vstr s') rfl rfl]
    | vtuple xs => rw [mergeRun_scalar a (Val.vtuple xs) rfl rfl]

theorem compatGo_nil (bd : Entries) : compatGo [] bd = true := by
  rw [compatGo.eq_def]

theorem compatGo_cons_dict (k : String) (d rest bd : Entries) :
    compatGo ((k, .vdict d) :: rest) bd =
      ((if hasKey bd k then
          match getV bd k with
          | .vdict bd2 => compatGo (eraseKey d "_delete_") bd2
          | _ => false
        else true) && compatGo rest bd) := by
  rw [compatGo.eq_def]

theorem compatGo_cons_nondict (k : String) (v : Val) (rest bd : Entries)
    (h : isDict v = false) :
    compatGo ((k, v) :: rest) bd = compatGo rest bd := by
  cases v
  case vdict es => simp [isDict] at h
  all_goals (rw [compatGo.eq_def]; simp)

/-- When, recursively, every nested overlay dict aligned with an existing
base key meets a dict on the base side, the merge loop succeeds. -/
theorem compat_mergeGo_ok :
    ∀ (n : Nat) (a : Entries), entriesSize a ≤ n → wfEntries a = true →
      ∀ (bd bd' : Entries),
        (∀ k, hasKey a k = true → hasKey bd' k = hasKey bd k ∧ getV bd' k = getV bd k) →
        compatGo a bd = true → ∃ m, (mergeGo a bd').1 = .ok m := by
  intro n
  induction n with
  | zero =>
    intro a h
    have := entriesSize_pos a
    omega
  | succ n ih =>
    intro a hsz hwf bd bd' hagr hc
    cases a with
    | nil => exact ⟨bd', by rw [mergeGo_nil]⟩
    | cons p rest =>
      obtain ⟨k, v⟩ := p
      obtain ⟨hw1, hw2, hw3⟩ := wfEntries_cons_parts k v rest hwf
      have hszc : entriesSize ((k, v) :: rest) =
          1 + (1 + 1 + valSize v) + entriesSize rest := rfl
      have hrest : entriesSize rest ≤ n := by
        have := entriesSize_pos rest
        omega
      have hk0 : hasKey ((k, v) :: rest) k = true := by
        rw [hasKey_cons]
        simp
      have hagrrest : ∀ k', hasKey rest k' = true →
          hasKey bd' k' = hasKey bd k' ∧ getV bd' k' = getV bd k' := by
        intro k' hk'
        apply hagr
        rw [hasKey_cons, hk']
        simp
      have hknotrest : ∀ k', hasKey rest k' = true → k' ≠ k := by
        intro k' hk' he
        rw [he, hw1] at hk'
        exact Bool.false_ne_true hk'
      by_cases hbd : ∃ d, v = Val.vdict d
      · obtain ⟨d, rfl⟩ := hbd
        rw [compatGo_cons_dict k d rest bd] at hc
        simp only [Bool.and_eq_true] at hc
        obtain ⟨hc1, hc2⟩ := hc
        have hdn : entriesSize (eraseKey d "_delete_") ≤ n := by
          have h1 := entriesSize_eraseKey_le d "_delete_"
          have hx : valSize (Val.vdict d) = 1 + entriesSize d := rfl
          omega
        have hwd : wfEntries (eraseKey d "_delete_") = true :=
          wfEntries_eraseKey d "_delete_" hw2
        by_cases hb : hasKey bd k = true
        · simp only [hb, if_true] at hc1
          cases hg : getV bd k with
          | vnone => rw [hg] at hc1; exact absurd hc1 Bool.false_ne_true
          | vbool b' => rw [hg] at hc1; exact absurd hc1 Bool.false_ne_true
          | vint n' => rw [hg] at hc1; exact absurd hc1 Bool.false_ne_true
          | vfloat m' e' => rw [hg] at hc1; exact absurd hc1 Bool.false_ne_true
          | vstr s' => rw [hg] at hc1; exact absurd hc1 Bool.false_ne_true
          | vlist xs => rw [hg] at hc1; exact absurd hc1 Bool.false_ne_true
          | vtuple xs => rw [hg] at hc1; exact absurd hc1 Bool.false_ne_true
          | vdict bd2 =>
            rw [hg] at hc1
            have hb' : hasKey bd' k = true := by
              rw [(hagr k hk0).1]
              exact hb
            have hg' : getV bd' k = Val.vdict bd2 := by
              rw [(hagr k hk0).2]
              exact hg
            obtain ⟨m0, hm0⟩ := ih (eraseKey d "_delete_") hdn hwd bd2 bd2
              (fun _ _ => ⟨rfl, rfl⟩) hc1
            rw [mergeGo_cons_dict_present k d rest bd' hb']
            rw [hg', mergeRun_dict]
            rcases hgo : mergeGo (eraseKey d "_delete_") bd2 with ⟨r0, dPost⟩
            rw [hgo] at hm0
            simp only at hm0
            rw [hm0]
            simp only [Except.map]
            have hagr2 : ∀ k', hasKey rest k' = true →
                hasKey (setKey bd' k (.vdict m0)) k' = hasKey bd k' ∧
                getV (setKey bd' k (.vdict m0)) k' = getV bd k' := by
              intro k' hk'
              have hne := hknotrest k' hk'
              rw [hasKey_setKey_ne bd' k _ k' hne, getV_setKey_ne bd' k _ k' hne]
              exact hagrrest k' hk'
            obtain ⟨m, hm⟩ := ih rest hrest hw3 bd (setKey bd' k (.vdict m0)) hagr2 hc2
            exact ⟨m, by rw [hm]⟩
        · have hbf : hasKey bd k = false := Bool.eq_false_iff.mpr hb
          have hb' : hasKey bd' k = false := by
            rw [(hagr k hk0).1]
            exact hbf
          rw [mergeGo_cons_dict_absent k d rest bd' hb']
          have hagr2 : ∀ k', hasKey rest k' = true →
              hasKey (setKey bd' k (.vdict d)) k' = hasKey bd k' ∧
              getV (setKey bd' k (.vdict d)) k' = getV bd k' := by
            intro k' hk'
            have hne := hknotrest k' hk'
            rw [hasKey_setKey_ne bd' k _ k' hne, getV_setKey_ne bd' k _ k' hne]
            exact hagrrest k' hk'
          obtain ⟨m, hm⟩ := ih rest hrest hw3 bd (setKey bd' k (.vdict d)) hagr2 hc2
          exact ⟨m, by rw [hm]⟩
      · have hdf : isDict v = false := by
          cases v
          case vdict es => exact absurd ⟨es, rfl⟩ hbd
          all_goals rfl
        rw [compatGo_cons_nondict k v rest bd hdf] at hc
        rw [mergeGo_cons_nondict k v rest bd' hdf]
        have hagr2 : ∀ k', hasKey rest k' = true →
            hasKey (setKey bd' k v) k' = hasKey bd k' ∧
            getV (setKey bd' k v) k' = getV bd k' := by
          intro k' hk'
          have hne := hknotrest k' hk'
          rw [hasKey_setKey_ne bd' k _ k' hne, getV_setKey_ne bd' k _ k' hne]
          exact hagrrest k' hk'
        obtain ⟨m, hm⟩ := ih rest hrest hw3 bd (setKey bd' k v) hagr2 hc
        exact ⟨m, by rw [hm]⟩

/-- A `_delete_` entry at the top of a nested overlay dict whose key exists
in the base is popped before the recursive merge and cannot influence the
merge result. -/
theorem mergeGo_delete_entry (k : String) (w : Val) (d rest bd : Entries)
    (h : hasKey bd k = true) :
    (mergeGo ((k, .vdict (("_delete_", w) :: d)) :: rest) bd).1 =
    (mergeGo ((k, .vdict d) :: rest) bd).1 := by
  rw [mergeGo_cons_dict_present k (("_delete_", w) :: d) rest bd h,
      mergeGo_cons_dict_present k d rest bd h]
  have he : eraseKey (("_delete_", w) :: d) "_delete_" = eraseKey d "_delete_" := by
    simp [eraseKey, List.filter]
  rw [he]

theorem parse_zero (fs : String → Option Entries) (cwd path : String) :
    parseBacktestConfig fs cwd 0 path = .error .recursionError := rfl

theorem parse_succ (fs : String → Option Entries) (cwd : String) (fuel : Nat) (path : String) :
    parseBacktestConfig fs cwd (fuel + 1) path =
      (match fs (absPath cwd path) with
       | none => .error (.fileNotFound ("file \"" ++ absPath cwd path ++ "\" does not exist"))
       | some config =>
         if extOf (absPath cwd path) = ".py" ∨ extOf (absPath cwd path) = ".json" ∨
             extOf (absPath cwd path) = ".yaml" ∨ extOf (absPath cwd path) = ".yml" then
           match lookupV config "_base_" with
           | none => .ok config
           | some bv =>
             parseBases (parseBacktestConfig fs cwd fuel) (dirName (absPath cwd path))
               (wrapBases bv) (eraseKey config "_base_")
         else .error (.ioError "Only py/yml/yaml/json type are supported now!")) := rfl

theorem parse_missing (fs : String → Option Entries) (cwd : String) (fuel : Nat) (path : String)
    (h : fs (absPath cwd path) = none) :
    parseBacktestConfig fs cwd (fuel + 1) path =
      .error (.fileNotFound ("file \"" ++ absPath cwd path ++ "\" does not exist")) := by
  rw [parse_succ, h]

theorem parse_bad_ext (fs : String → Option Entries) (cwd : String) (fuel : Nat) (path : String)
    (config : Entries) (h : fs (absPath cwd path) = some config)
    (hext : ¬(extOf (absPath cwd path) = ".py" ∨ extOf (absPath cwd path) = ".json" ∨
      extOf (absPath cwd path) = ".yaml" ∨ extOf (absPath cwd path) = ".yml")) :
    parseBacktestConfig fs cwd (fuel + 1) path =
      .error (.ioError "Only py/yml/yaml/json type are supported now!") := by
  rw [parse_succ, h]
  simp only [if_neg hext]

theorem parse_no_base (fs : String → Option Entries) (cwd : String) (fuel : Nat) (path : String)
    (config : Entries) (h : fs (absPath cwd path) = some config)
    (hext : extOf (absPath cwd path) = ".py" ∨ extOf (absPath cwd path) = ".json" ∨
      extOf (absPath cwd path) = ".yaml" ∨ extOf (absPath cwd path) = ".yml")
    (hb : lookupV config "_base_" = none) :
    parseBacktestConfig fs cwd (fuel + 1) path = .ok config := by
  rw [parse_succ, h]
  simp only [if_pos hext, hb]

theorem parse_with_base (fs : String → Option Entries) (cwd : String) (fuel : Nat) (path : String)
    (config : Entries) (bv : Val) (h : fs (absPath cwd path) = some config)
    (hext : extOf (absPath cwd path) = ".py" ∨ extOf (absPath cwd path) = ".json" ∨
      extOf (absPath cwd path) = ".yaml" ∨ extOf (absPath cwd path) = ".yml")
    (hb : lookupV config "_base_" = some bv) :
    parseBacktestConfig fs cwd (fuel + 1) path =
      parseBases (parseBacktestConfig fs cwd fuel) (dirName (absPath cwd path))
        (wrapBases bv) (eraseKey config "_base_") := by
  rw [parse_succ, h]
  simp only [if_pos hext]
  rw [hb]

theorem parseBases_nil (load : String → Except Err Entries) (dir : String) (cur : Entries) :
    parseBases load dir [] cur = .ok cur := rfl

theorem parseBases_error_absorb (load : String → Except Err Entries) (dir : String)
    (bs : List Val) (e : Err) :
    List.foldl
      (fun (acc : Except Err Entries) (f : Val) =>
        match acc with
        | .error e => .error e
        | .ok current =>
          match f with
          | .vstr ss =>
            match load (joinPath dir ss) with
            | .error e => .error e
            | .ok baseConfig =>
              match (mergeGoC current baseConfig).1 with
              | .error _ => .error .attributeError
              | .ok merged => .ok merged
          | _ => .error .typeError)
      (.error e : Except Err Entries) bs = .error e := by
  induction bs with
  | nil => rfl
  | cons f rest ih =>
    rw [List.foldl_cons]
    exact ih

theorem parseBases_cons_str (load : String → Except Err Entries) (dir ss : String)
    (rest : List Val) (cur : Entries) :
    parseBases load dir (.vstr ss :: rest) cur =
      match load (joinPath dir ss) with
      | .error e => .error e
      | .ok baseConfig =>
        match (mergeGoC cur baseConfig).1 with
        | .error _ => .error .attributeError
        | .ok merged => parseBases load dir rest merged := by
  unfold parseBases
  rw [List.foldl_cons]
  cases hl : load (joinPath dir ss) with
  | error e =>
    simp only [hl]
    exact parseBases_error_absorb load dir rest e
  | ok baseConfig =>
    simp only [hl]
    cases hm : (mergeGoC cur baseConfig).1 with
    | error u =>
      simp only [hm]
      exact parseBases_error_absorb load dir rest .attributeError
    | ok merged => simp only [hm]

theorem parseBases_cons_nonstr (load : String → Except Err Entries) (dir : String)
    (f : Val) (rest : List Val) (cur : Entries)
    (h : (match f with | Val.vstr _ => true | _ => false) = false) :
    parseBases load dir (f :: rest) cur = .error .typeError := by
  cases f
  case vstr ss => simp at h
  all_goals
    (unfold parseBases
     rw [List.foldl_cons]
     exact parseBases_error_absorb load dir rest .typeError)

theorem parseBases_ok_NodupKeys (load : String → Except Err Entries) (dir : String)
    (hload : ∀ p m, load p = .ok m → NodupKeys m) :
    ∀ (bs : List Val) (cur m : Entries), NodupKeys cur →
      parseBases load dir bs cur = .ok m → NodupKeys m := by
  intro bs
  induction bs with
  | nil =>
    intro cur m hcur h
    rw [parseBases_nil] at h
    simp at h
    rw [← h]
    exact hcur
  | cons f rest ih =>
    intro cur m hcur h
    cases f
    case vstr ss =>
      rw [parseBases_cons_str] at h
      cases hl : load (joinPath dir ss) with
      | error e => simp only [hl] at h; simp at h
      | ok baseConfig =>
        simp only [hl] at h
        cases hm : (mergeGoC cur baseConfig).1 with
        | error u => simp only [hm] at h; simp at h
        | ok merged =>
          simp only [hm] at h
          have hbm : NodupKeys merged := by
            rw [mergeGoC_eq] at hm
            exact mergeGo_ok_NodupKeys cur baseConfig merged
              (hload (joinPath dir ss) baseConfig hl) hm
          exact ih merged m hbm h
    all_goals
      (rw [parseBases_cons_nonstr load dir _ rest cur rfl] at h
       simp at h)

theorem parseBases_preserves_nonDict (load : String → Except Err Entries) (dir : String)
    (hload : ∀ p m, load p = .ok m → NodupKeys m) :
    ∀ (bs : List Val) (cur m : Entries) (k : String) (v : Val), NodupKeys cur →
      parseBases load dir bs cur = .ok m →
      lookupV cur k = some v → isDict v = false → lookupV m k = some v := by
  intro bs
  induction bs with
  | nil =>
    intro cur m k v hcur h hl hd
    rw [parseBases_nil] at h
    simp at h
    rw [← h]
    exact hl
  | cons f rest ih =>
    intro cur m k v hcur h hl hd
    cases f
    case vstr ss =>
      rw [parseBases_cons_str] at h
      cases hload' : load (joinPath dir ss) with
      | error e => simp only [hload'] at h; simp at h
      | ok baseConfig =>
        simp only [hload'] at h
        cases hm : (mergeGoC cur baseConfig).1 with
        | error u => simp only [hm] at h; simp at h
        | ok merged =>
          simp only [hm] at h
          rw [mergeGoC_eq] at hm
          have hS := (mergeGo_ok_spec cur hcur baseConfig merged hm).2.2
          have hlm : lookupV merged k = some v := hS k v hl (Or.inl hd)
          have hbm : NodupKeys merged :=
            mergeGo_ok_NodupKeys cur baseConfig merged
              (hload (joinPath dir ss) baseConfig hload') hm
          exact ih merged m k v hbm h hlm hd
    all_goals
      (rw [parseBases_cons_nonstr load dir _ rest cur rfl] at h
       simp at h)

theorem parse_ok_NodupKeys (fs : String → Option Entries) (cwd : String)
    (hfs : ∀ p d, fs p = some d → NodupKeys d) :
    ∀ (fuel : Nat) (path : String) (m : Entries),
      parseBacktestConfig fs cwd fuel path = .ok m → NodupKeys m := by
  intro fuel
  induction fuel with
  | zero =>
    intro path m h
    rw [parse_zero] at h
    simp at h
  | succ fuel ih =>
    intro path m h
    rw [parse_succ] at h
    cases hfsv : fs (absPath cwd path) with
    | none => simp only [hfsv] at h; simp at h
    | some config =>
      simp only [hfsv] at h
      by_cases hext : extOf (absPath cwd path) = ".py" ∨ extOf (absPath cwd path) = ".json" ∨
          extOf (absPath cwd path) = ".yaml" ∨ extOf (absPath cwd path) = ".yml"
      · rw [if_pos hext] at h
        cases hb : lookupV config "_base_" with
        | none =>
          simp only [hb] at h
          simp at h
          rw [← h]
          exact hfs _ config hfsv
        | some bv =>
          rw [hb] at h
          exact parseBases_ok_NodupKeys (parseBacktestConfig fs cwd fuel) _
            (fun p m' hp => ih p m' hp) _ _ m
            (NodupKeys_eraseKey config "_base_" (hfs _ config hfsv)) h
      · rw [if_neg hext] at h
        simp at h

theorem parse_own_scalar_keys (fs : String → Option Entries) (cwd : String)
    (hfs : ∀ p d, fs p = some d → NodupKeys d)
    (fuel : Nat) (path : String) (m raw : Entries) (k : String) (v : Val)
    (hraw : fs (absPath cwd path) = some raw)
    (h : parseBacktestConfig fs cwd (fuel + 1) path = .ok m)
    (hl : lookupV raw k = some v) (hkb : k ≠ "_base_") (hd : isDict v = false) :
    lookupV m k = some v := by
  rw [parse_succ] at h
  simp only [hraw] at h
  by_cases hext : extOf (absPath cwd path) = ".py" ∨ extOf (absPath cwd path) = ".json" ∨
      extOf (absPath cwd path) = ".yaml" ∨ extOf (absPath cwd path) = ".yml"
  · rw [if_pos hext] at h
    cases hb : lookupV raw "_base_" with
    | none =>
      simp only [hb] at h
      simp at h
      rw [← h]
      exact hl
    | some bv =>
      rw [hb] at h
      have hcur : lookupV (eraseKey raw "_base_") k = some v := by
        rw [lookupV_eraseKey_ne raw "_base_" k hkb]
        exact hl
      exact parseBases_preserves_nonDict (parseBacktestConfig fs cwd fuel) _
        (fun p m' hp => parse_ok_NodupKeys fs cwd hfs fuel p m' hp) _ _ m k v
        (NodupKeys_eraseKey raw "_base_" (hfs _ raw hraw)) h hcur hd
  · rw [if_neg hext] at h
    simp at h

theorem splitLastChar_not_mem (c : Char) (l : List Char) (h : c ∉ l) :
    splitLastChar c l = none := by
  induction l with
  | nil => rfl
  | cons x xs ih =>
    rw [List.mem_cons] at h
    push_neg at h
    rw [splitLastChar, ih h.2, if_neg (fun he => h.1 he.symm)]

theorem splitLastChar_last (c : Char) (p q : List Char) (h : c ∉ q) :
    splitLastChar c (p ++ c :: q) = some (p, q) := by
  induction p with
  | nil =>
    rw [List.nil_append, splitLastChar, splitLastChar_not_mem c q h, if_pos rfl]
  | cons x p ih =>
    rw [List.cons_append, splitLastChar, ih]

theorem splitTypeName_dotted (mp cn : String) (h : '.' ∉ cn.toList) :
    splitTypeName (mp ++ "." ++ cn) = (mp, cn) := by
  unfold splitTypeName
  have he : (mp ++ "." ++ cn).toList = mp.toList ++ '.' :: cn.toList := by
    have h1 : (mp ++ "." ++ cn).toList = (mp.toList ++ ['.']) ++ cn.toList := rfl
    rw [h1, List.append_assoc]
    rfl
  rw [he, splitLastChar_last '.' mp.toList cn.toList h]
  rfl

theorem splitTypeName_nodot (s : String) (h : '.' ∉ s.toList) :
    splitTypeName s = ("", s) := by
  unfold splitTypeName
  rw [splitLastChar_not_mem '.' s.toList h]

theorem convert_dict_strtype (es : Entries) (s : String)
    (h : lookupV es "type" = some (.vstr s)) :
    convertInstanceConfig (.vdict es) =
      Except.map
        (fun kw => Val.vdict [("class", .vstr (splitTypeName s).2),
          ("module_path", .vstr (splitTypeName s).1), ("kwargs", .vdict kw)])
        (convertKwargs es) := by
  rw [convertInstanceConfig]
  simp only [h]
  cases convertKwargs es with
  | error e => rfl
  | ok kw => rfl

theorem convert_dict_notype (es : Entries) (h : lookupV es "type" = none) :
    convertInstanceConfig (.vdict es) = Except.map Val.vdict (convertEntries es) := by
  rw [convertInstanceConfig]
  simp only [h]
  cases convertEntries es with
  | error e => rfl
  | ok es' => rfl

theorem convert_vlist (xs : List Val) :
    convertInstanceConfig (.vlist xs) = Except.map Val.vlist (convertList xs) := by
  rw [convertInstanceConfig]
  cases convertList xs with
  | error e => rfl
  | ok ys => rfl

theorem convert_vtuple (xs : List Val) :
    convertInstanceConfig (.vtuple xs) = Except.map Val.vtuple (convertList xs) := by
  rw [convertInstanceConfig]
  cases convertList xs with
  | error e => rfl
  | ok ys => rfl

theorem convertKwargs_forall2 (l : Entries) :
    ∀ kw, convertKwargs l = .ok kw →
      List.Forall₂ (fun p q => p.1 = q.1 ∧ convertInstanceConfig p.2 = .ok q.2)
        (l.filter (fun p => !(p.1 == "type"))) kw := by
  induction l with
  | nil =>
    intro kw h
    simp only [convertKwargs] at h
    simp at h
    subst h
    exact List.Forall₂.nil
  | cons p rest ih =>
    intro kw h
    obtain ⟨k, v⟩ := p
    rw [convertKwargs] at h
    by_cases hk : (k == "type") = true
    · rw [if_pos hk] at h
      simp only [List.filter]
      rw [show (!(k == "type")) = false by simp [hk]]
      exact ih kw h
    · rw [if_neg hk] at h
      cases hv : convertInstanceConfig v with
      | error e => rw [hv] at h; simp at h
      | ok v' =>
        rw [hv] at h
        cases hr : convertKwargs rest with
        | error e => rw [hr] at h; simp at h
        | ok rest' =>
          rw [hr] at h
          simp at h
          subst h
          simp only [List.filter]
          rw [show (!(k == "type")) = true by simp [Bool.eq_false_iff.mpr hk]]
          exact List.Forall₂.cons ⟨rfl, hv⟩ (ih rest' hr)

theorem convertEntries_forall2 (l : Entries) :
    ∀ es', convertEntries l = .ok es' →
      List.Forall₂ (fun p q => p.1 = q.1 ∧ convertInstanceConfig p.2 = .ok q.2) l es' := by
  induction l with
  | nil =>
    intro es' h
    simp only [convertEntries] at h
    simp at h
    subst h
    exact List.Forall₂.nil
  | cons p rest ih =>
    intro es' h
    obtain ⟨k, v⟩ := p
    rw [convertEntries] at h
    cases hv : convertInstanceConfig v with
    | error e => rw [hv] at h; simp at h
    | ok v' =>
      rw [hv] at h
      cases hr : convertEntries rest with
      | error e => rw [hr] at h; simp at h
      | ok rest' =>
        rw [hr] at h
        simp at h
        subst h
        exact List.Forall₂.cons ⟨rfl, hv⟩ (ih rest' hr)

theorem convertList_forall2 (l : List Val) :
    ∀ ys, convertList l = .ok ys →
      List.Forall₂ (fun x y => convertInstanceConfig x = .ok y) l ys := by
  induction l with
  | nil =>
    intro ys h
    simp only [convertList] at h
    simp at h
    subst h
    exact List.Forall₂.nil
  | cons v rest ih =>
    intro ys h
    rw [convertList] at h
    cases hv : convertInstanceConfig v with
    | error e => rw [hv] at h; simp at h
    | ok v' =>
      rw [hv] at h
      cases hr : convertList rest with
      | error e => rw [hr] at h; simp at h
      | ok rest' =>
        rw [hr] at h
        simp at h
        subst h
        exact List.Forall₂.cons hv (ih rest' hr)

theorem forall2_map_fst {l es' : Entries}
    (hf : List.Forall₂ (fun p q => p.1 = q.1 ∧ convertInstanceConfig p.2 = .ok q.2) l es') :
    es'.map Prod.fst = l.map Prod.fst := by
  induction hf with
  | nil => rfl
  | cons hpq htail ih =>
    simp only [List.map_cons, ih]
    rw [hpq.1]

theorem convertEntries_keys (l : Entries) :
    ∀ es', convertEntries l = .ok es' → es'.map Prod.fst = l.map Prod.fst := by
  intro es' h
  exact forall2_map_fst (convertEntries_forall2 l es' h)

theorem convert_scalar_vstr (s : String) :
    convertInstanceConfig (.vstr s) = .ok (.vstr s) := rfl

theorem valSize_pos (x : Val) : 1 ≤ valSize x := by
  cases x <;> simp [valSize]

theorem valSize_lt_entriesSize {k : String} {v : Val} {l : Entries}
    (h : (k, v) ∈ l) : valSize v < entriesSize l := by
  induction l with
  | nil => simp at h
  | cons p rest ih =>
    obtain ⟨k1, v1⟩ := p
    rw [List.mem_cons] at h
    have hsz : entriesSize ((k1, v1) :: rest) =
        1 + (1 + 1 + valSize v1) + entriesSize rest := rfl
    rcases h with he | hm
    · obtain ⟨he1, he2⟩ := Prod.mk.injEq .. ▸ he
      · rw [hsz]
        have : v = v1 := by
          injection he with a b
        rw [this]
        omega
    · have := ih hm
      omega

theorem valSize_lt_listSize {v : Val} {l : List Val} (h : v ∈ l) :
    valSize v < listSize l := by
  induction l with
  | nil => simp at h
  | cons x rest ih =>
    rw [List.mem_cons] at h
    have hsz : listSize (x :: rest) = 1 + valSize x + listSize rest := rfl
    rcases h with he | hm
    · rw [hsz, he]
      have := listSize.eq_def
      omega
    · have := ih hm
      omega

theorem typesEntries_cons_parts (k : String) (v : Val) (rest : Entries)
    (h : typesEntries ((k, v) :: rest) = true) :
    typesAreStrings v = true ∧ typesEntries rest = true := by
  rw [typesEntries] at h
  simp only [Bool.and_eq_true] at h
  exact h

theorem typesList_cons_parts (v : Val) (rest : List Val)
    (h : typesList (v :: rest) = true) :
    typesAreStrings v = true ∧ typesList rest = true := by
  rw [typesList] at h
  simp only [Bool.and_eq_true] at h
  exact h

theorem convertKwargs_norm (l : Entries)
    (IH : ∀ p : String × Val, p ∈ l → typesAreStrings p.2 = true →
      ∃ y, convertInstanceConfig p.2 = .ok y ∧ noTypeKey y = true ∧
        convertInstanceConfig y = .ok y)
    (ht : typesEntries l = true) :
    ∃ kw, convertKwargs l = .ok kw ∧ hasKey kw "type" = false ∧
      noTypeEntries kw = true ∧ convertEntries kw = .ok kw := by
  induction l with
  | nil => exact ⟨[], rfl, rfl, rfl, rfl⟩
  | cons p rest ih =>
    obtain ⟨k, v⟩ := p
    obtain ⟨ht1, ht2⟩ := typesEntries_cons_parts k v rest ht
    obtain ⟨kw, h1, h2, h3, h4⟩ :=
      ih (fun q hq htq => IH q (List.mem_cons_of_mem _ hq) htq) ht2
    rw [convertKwargs]
    by_cases hk : (k == "type") = true
    · rw [if_pos hk]
      exact ⟨kw, h1, h2, h3, h4⟩
    · rw [if_neg hk]
      obtain ⟨y, hy1, hy2, hy3⟩ := IH (k, v) (List.mem_cons_self _ _) ht1
      rw [hy1, h1]
      refine ⟨(k, y) :: kw, rfl, ?_, ?_, ?_⟩
      · rw [hasKey_cons, h2]
        have hkne : k ≠ "type" := fun he => hk (beq_iff_eq.mpr he)
        simp [hkne]
      · rw [noTypeEntries]
        simp [hy2, h3]
      · rw [convertEntries, hy3, h4]

theorem convertEntries_norm (l : Entries)
    (IH : ∀ p : String × Val, p ∈ l → typesAreStrings p.2 = true →
      ∃ y, convertInstanceConfig p.2 = .ok y ∧ noTypeKey y = true ∧
        convertInstanceConfig y = .ok y)
    (ht : typesEntries l = true) :
    ∃ es', convertEntries l = .ok es' ∧ es'.map Prod.fst = l.map Prod.fst ∧
      noTypeEntries es' = true ∧ convertEntries es' = .ok es' := by
  induction l with
  | nil => exact ⟨[], rfl, rfl, rfl, rfl⟩
  | cons p rest ih =>
    obtain ⟨k, v⟩ := p
    obtain ⟨ht1, ht2⟩ := typesEntries_cons_parts k v rest ht
    obtain ⟨es', h1, h2, h3, h4⟩ :=
      ih (fun q hq htq => IH q (List.mem_cons_of_mem _ hq) htq) ht2
    obtain ⟨y, hy1, hy2, hy3⟩ := IH (k, v) (List.mem_cons_self _ _) ht1
    rw [convertEntries, hy1, h1]
    refine ⟨(k, y) :: es', rfl, ?_, ?_, ?_⟩
    · simp only [List.map_cons, h2]
    · rw [noTypeEntries]
      simp [hy2, h3]
    · rw [convertEntries, hy3, h4]

theorem convertList_norm (l : List Val)
    (IH : ∀ v, v ∈ l → typesAreStrings v = true →
      ∃ y, convertInstanceConfig v = .ok y ∧ noTypeKey y = true ∧
        convertInstanceConfig y = .ok y)
    (ht : typesList l = true) :
    ∃ ys, convertList l = .ok ys ∧ noTypeList ys = true ∧ convertList ys = .ok ys := by
  induction l with
  | nil => exact ⟨[], rfl, rfl, rfl⟩
  | cons v rest ih =>
    obtain ⟨ht1, ht2⟩ := typesList_cons_parts v rest ht
    obtain ⟨ys, h1, h2, h3⟩ :=
      ih (fun w hw htw => IH w (List.mem_cons_of_mem _ hw) htw) ht2
    obtain ⟨y, hy1, hy2, hy3⟩ := IH v (List.mem_cons_self _ _) ht1
    rw [convertList, hy1, h1]
    refine ⟨y :: ys, rfl, ?_, ?_⟩
    · rw [noTypeList]
      simp [hy2, h2]
    · rw [convertList, hy3, h3]

/-- Under the restriction that every `type` value anywhere is a string,
`convert_instance_config` succeeds, its output contains no `type` key in
any dict, and it is a fixed point of the normalizer. -/
theorem convert_norm :
    ∀ (n : Nat) (x : Val), valSize x ≤ n → typesAreStrings x = true →
      ∃ y, convertInstanceConfig x = .ok y ∧ noTypeKey y = true ∧
        convertInstanceConfig y = .ok y := by
  intro n
  induction n with
  | zero =>
    intro x hsz
    have := valSize_pos x
    omega
  | succ n ih =>
    intro x hsz ht
    cases x with
    | vnone => exact ⟨.vnone, rfl, rfl, rfl⟩
    | vbool b' => exact ⟨.vbool b', rfl, rfl, rfl⟩
    | vint n' => exact ⟨.vint n', rfl, rfl, rfl⟩
    | vfloat m' e' => exact ⟨.vfloat m' e', rfl, rfl, rfl⟩
    | vstr s' => exact ⟨.vstr s', rfl, rfl, rfl⟩
    | vlist xs =>
      have hls : listSize xs ≤ n := by
        have hx : valSize (Val.vlist xs) = 1 + listSize xs := rfl
        omega
      obtain ⟨ys, h1, h2, h3⟩ := convertList_norm xs
        (fun v hv htv => ih v (by have := valSize_lt_listSize hv; omega) htv) ht
      refine ⟨.vlist ys, ?_, h2, ?_⟩
      · rw [convert_vlist, h1]
        rfl
      · rw [convert_vlist, h3]
        rfl
    | vtuple xs =>
      have hls : listSize xs ≤ n := by
        have hx : valSize (Val.vtuple xs) = 1 + listSize xs := rfl
        omega
      obtain ⟨ys, h1, h2, h3⟩ := convertList_norm xs
        (fun v hv htv => ih v (by have := valSize_lt_listSize hv; omega) htv) ht
      refine ⟨.vtuple ys, ?_, h2, ?_⟩
      · rw [convert_vtuple, h1]
        rfl
      · rw [convert_vtuple, h3]
        rfl
    | vdict es =>
      have hes : entriesSize es ≤ n := by
        have hx : valSize (Val.vdict es) = 1 + entriesSize es := rfl
        omega
      have hIH : ∀ p : String × Val, p ∈ es → typesAreStrings p.2 = true →
          ∃ y, convertInstanceConfig p.2 = .ok y ∧ noTypeKey y = true ∧
            convertInstanceConfig y = .ok y := by
        intro p hp htp
        obtain ⟨k, v⟩ := p
        exact ih v (by have := valSize_lt_entriesSize hp; omega) htp
      rw [typesAreStrings] at ht
      simp only [Bool.and_eq_true] at ht
      obtain ⟨ht1, ht2⟩ := ht
      cases hb : lookupV es "type" with
      | none =>
        obtain ⟨es', h1, hkeys, h3, h4⟩ := convertEntries_norm es hIH ht2
        have hkes' : hasKey es' "type" = false := by
          rw [hasKey_false_iff, hkeys]
          rw [← hasKey_false_iff, hasKey_eq_isSome, hb]
          rfl
        have hles' : lookupV es' "type" = none := by
          cases hlk : lookupV es' "type" with
          | none => rfl
          | some w =>
            rw [hasKey_eq_isSome, hlk] at hkes'
            simp at hkes'
        refine ⟨.vdict es', ?_, ?_, ?_⟩
        · rw [convert_dict_notype es hb, h1]
          rfl
        · rw [noTypeKey]
          simp [hkes', h3]
        · rw [convert_dict_notype es' hles', h4]
          rfl
      | some tv =>
        rw [hb] at ht1
        cases tv with
        | vstr s =>
          obtain ⟨kw, h1, h2, h3, h4⟩ := convertKwargs_norm es hIH ht2
          have hkwnone : lookupV kw "type" = none := by
            cases hlk : lookupV kw "type" with
            | none => rfl
            | some w =>
              rw [hasKey_eq_isSome, hlk] at h2
              simp at h2
          have hckw : convertInstanceConfig (.vdict kw) = .ok (.vdict kw) := by
            rw [convert_dict_notype kw hkwnone, h4]
            rfl
          refine ⟨.vdict [("class", .vstr (splitTypeName s).2),
            ("module_path", .vstr (splitTypeName s).1), ("kwargs", .vdict kw)], ?_, ?_, ?_⟩
          · rw [convert_dict_strtype es s hb, h1]
            rfl
          · simp [noTypeKey, noTypeEntries, hasKey, h2, h3]
            intro a b hab he
            exact (hasKey_false_iff kw "type").mp h2 (List.mem_map.mpr ⟨(a, b), hab, he⟩)
          · have hld : lookupV [("class", Val.vstr (splitTypeName s).2),
                ("module_path", .vstr (splitTypeName s).1), ("kwargs", .vdict kw)]
                "type" = none := rfl
            rw [convert_dict_notype _ hld]
            rw [convertEntries, convert_scalar_vstr]
            rw [convertEntries, convert_scalar_vstr]
            rw [convertEntries, hckw]
            rfl
        | vnone => exact absurd ht1 Bool.false_ne_true
        | vbool b' => exact absurd ht1 Bool.false_ne_true
        | vint n' => exact absurd ht1 Bool.false_ne_true
        | vfloat m' e' => exact absurd ht1 Bool.false_ne_true
        | vlist xs => exact absurd ht1 Bool.false_ne_true
        | vtuple xs => exact absurd ht1 Bool.false_ne_true
        | vdict d' => exact absurd ht1 Bool.false_ne_true

theorem merge_dicts_ok (a b m : Entries) :
    merge_a_into_b (.vdict a) (.vdict b) = .ok (.vdict m) ↔ (mergeGo a b).1 = .ok m := by
  show (mergeRun a (.vdict b)).1 = _ ↔ _
  rw [mergeRun_dict]
  cases (mergeGo a b).1 with
  | error e => simp [Except.map]
  | ok mm => simp [Except.map]

instance (l : Entries) : Decidable (NodupKeys l) :=
  inferInstanceAs (Decidable ((l.map Prod.fst).Nodup))

/-- File system with a base file `A.yaml` and a child `B.yaml` whose
`_base_` is the lone string `"A.yaml"`, from the spec's worked example. -/
def fsExampleAB : String → Option Entries := fun p =>
  if p = "/w/A.yaml" then some [("x", .vint 1), ("y", .vdict [("p", .vint 1)])]
  else if p = "/w/B.yaml" then
    some [("_base_", .vstr "A.yaml"), ("y", .vdict [("q", .vint 2)]), ("z", .vint 3)]
  else none

/-- File system with a single config carrying an `exchange` section that
overrides one default and holds a list value. -/
def fsExampleC : String → Option Entries := fun p =>
  if p = "/w/c.yaml" then
    some [("exchange", .vdict [("open_cost", .vfloat 1 2),
      ("limit_threshold", .vlist [.vfloat 5 2, .vfloat 5 2])])]
  else none

/-- File system with one `.txt` file, for the unsupported-extension path. -/
def fsExampleTxt : String → Option Entries := fun p =>
  if p = "/w/x.txt" then some [("a", .vint 1)] else none

theorem fsExampleAB_nodup : ∀ p d, fsExampleAB p = some d → NodupKeys d := by
  intro p d h
  unfold fsExampleAB at h
  by_cases h1 : p = "/w/A.yaml"
  · rw [if_pos h1] at h
    injection h with h
    rw [← h]
    decide
  · rw [if_neg h1] at h
    by_cases h2 : p = "/w/B.yaml"
    · rw [if_pos h2] at h
      injection h with h
      rw [← h]
      decide
    · rw [if_neg h2] at h
      exact absurd h (by simp)

/-- Claim C1 (counterexample): when the overlay holds a nested mapping under
a key whose base value is the scalar `5`, `merge_a_into_b` does not return a
mapping at all — the recursive call raises `AttributeError` at `b.copy()` —
whereas the claim requires the overlay's value to replace the base's. -/
theorem C1_counterexample :
    merge_a_into_b (.vdict [("k", .vdict [("x", .vint 1)])]) (.vdict [("k", .vint 5)]) =
      .error () := by
  rw [← merge_a_into_bC_eq]
  rfl

/-- Claim C1 (amended): for overlay and base dicts with distinct keys, when
`merge_a_into_b` returns a mapping, every key of the overlay is present —
bound to the recursive merge of the overlay's `_delete_`-popped nested dict
into the base's value when the overlay's value is a dict and the key exists
in the base, and to the overlay's value unchanged otherwise — and every key
only in the base keeps the base's binding. -/
theorem C1_merge_spec (ad bd m : Entries) (hnd : NodupKeys ad)
    (h : merge_a_into_b (.vdict ad) (.vdict bd) = .ok (.vdict m)) :
    (∀ k, hasKey ad k = false → lookupV m k = lookupV bd k) ∧
    (∀ k d, lookupV ad k = some (.vdict d) → hasKey bd k = true →
      ∃ w, (mergeRun (eraseKey d "_delete_") (getV bd k)).1 = .ok w ∧
        lookupV m k = some w) ∧
    (∀ k v, lookupV ad k = some v → (isDict v = false ∨ hasKey bd k = false) →
      lookupV m k = some v) :=
  mergeGo_ok_spec ad hnd bd m ((merge_dicts_ok ad bd m).mp h)

/-- Witness for C1 at a concrete overlay and base. -/
theorem C1_witness :
    lookupV [("b", Val.vint 2), ("a", Val.vint 1)] "a" = some (Val.vint 1) :=
  (C1_merge_spec [("a", .vint 1)] [("b", .vint 2)] [("b", .vint 2), ("a", .vint 1)]
    (by decide) (by rw [← merge_a_into_bC_eq]; rfl)).2.2 "a" (.vint 1) rfl (Or.inl rfl)

/-- Claim C2: a `_base_` reference is popped, a lone string is wrapped into
a one-element list, each base is resolved against the current file's
directory and loaded recursively, and the results are folded by deep merge
with the growing result as overlay, so non-mapping keys of the original
file survive all bases; on the spec's worked example the load of `B` yields
`{x: 1, y: {p: 1, q: 2}, z: 3}`. -/
theorem C2_base_resolution :
    (parseBacktestConfig fsExampleAB "/w" 3 "/w/B.yaml" =
      .ok [("x", .vint 1), ("y", .vdict [("p", .vint 1), ("q", .vint 2)]),
        ("z", .vint 3)]) ∧
    (∀ s : String, wrapBases (.vstr s) = [.vstr s]) ∧
    (∀ (fs : String → Option Entries) (cwd : String) (fuel : Nat) (path : String)
        (config : Entries) (bv : Val),
      fs (absPath cwd path) = some config →
      (extOf (absPath cwd path) = ".py" ∨ extOf (absPath cwd path) = ".json" ∨
        extOf (absPath cwd path) = ".yaml" ∨ extOf (absPath cwd path) = ".yml") →
      lookupV config "_base_" = some bv →
      parseBacktestConfig fs cwd (fuel + 1) path =
        parseBases (parseBacktestConfig fs cwd fuel) (dirName (absPath cwd path))
          (wrapBases bv) (eraseKey config "_base_")) ∧
    (∀ (fs : String → Option Entries) (cwd : String),
      (∀ p d, fs p = some d → NodupKeys d) →
      ∀ (fuel : Nat) (path : String) (m raw : Entries) (k : String) (v : Val),
        fs (absPath cwd path) = some raw →
        parseBacktestConfig fs cwd (fuel + 1) path = .ok m →
        lookupV raw k = some v → k ≠ "_base_" → isDict v = false →
        lookupV m k = some v) :=
  ⟨rfl, fun _ => rfl, parse_with_base,
   fun fs cwd hfs fuel path m raw k v hraw h hl hkb hd =>
     parse_own_scalar_keys fs cwd hfs fuel path m raw k v hraw h hl hkb hd⟩

/-- Witness for C2: the scalar-precedence conjunct applied to the worked
example, showing the child's own key `z` survives the base merge. -/
theorem C2_witness :
    lookupV [("x", Val.vint 1), ("y", Val.vdict [("p", Val.vint 1), ("q", Val.vint 2)]),
      ("z", Val.vint 3)] "z" = some (Val.vint 3) :=
  C2_base_resolution.2.2.2 fsExampleAB "/w" fsExampleAB_nodup 2 "/w/B.yaml"
    [("x", .vint 1), ("y", .vdict [("p", .vint 1), ("q", .vint 2)]), ("z", .vint 3)]
    [("_base_", .vstr "A.yaml"), ("y", .vdict [("q", .vint 2)]), ("z", .vint 3)]
    "z" (.vint 3) rfl rfl rfl (by decide) rfl

/-- Claim C3: `get_backtest_config_fromfile` merges the loaded config's
`exchange` mapping as overlay onto the fixed exchange defaults (raising
`KeyError` when `exchange` is absent), converts every list value inside the
merged exchange mapping to a tuple (recursing into nested dicts), then
merges the whole config as overlay onto the fixed top-level defaults; on a
concrete config the end-to-end result is as computed. -/
theorem C3_assembly :
    (∀ (fs : String → Option Entries) (cwd : String) (fuel : Nat) (path : String)
        (cfg : Entries),
      parseBacktestConfig fs cwd fuel path = .ok cfg →
      lookupV cfg "exchange" = none →
      get_backtest_config_fromfile fs cwd fuel path = .error (.keyError "exchange")) ∧
    (∀ (fs : String → Option Entries) (cwd : String) (fuel : Nat) (path : String)
        (cfg exm finalConfig : Entries) (ex : Val),
      parseBacktestConfig fs cwd fuel path = .ok cfg →
      lookupV cfg "exchange" = some ex →
      merge_a_into_b ex (.vdict
        [("open_cost", .vfloat 5 4), ("close_cost", .vfloat 15 4),
         ("min_cost", .vfloat 5 0), ("trade_unit", .vfloat 100 0),
         ("cash_limit", .vnone), ("generate_report", .vbool false)]) = .ok (.vdict exm) →
      merge_a_into_b
        (.vdict (setKey cfg "exchange" (.vdict (convertAllListToTuple exm))))
        (.vdict
          [("debug_single_stock", .vnone), ("debug_single_day", .vnone),
           ("concurrency", .vint (-1)), ("multiplier", .vfloat 1 0),
           ("output_dir", .vstr "outputs/")]) = .ok (.vdict finalConfig) →
      get_backtest_config_fromfile fs cwd fuel path = .ok finalConfig) ∧
    (∀ (k : String) (xs : List Val) (rest : Entries),
      convertAllListToTuple ((k, .vlist xs) :: rest) =
        (k, .vtuple xs) :: convertAllListToTuple rest) ∧
    (∀ (k : String) (es rest : Entries),
      convertAllListToTuple ((k, .vdict es) :: rest) =
        (k, .vdict (convertAllListToTuple es)) :: convertAllListToTuple rest) ∧
    (∀ (k : String) (v : Val) (rest : Entries), isDict v = false → isList v = false →
      convertAllListToTuple ((k, v) :: rest) = (k, v) :: convertAllListToTuple rest) ∧
    (get_backtest_config_fromfile fsExampleC "/w" 1 "/w/c.yaml" =
      .ok [("debug_single_stock", .vnone), ("debug_single_day", .vnone),
        ("concurrency", .vint (-1)), ("multiplier", .vfloat 1 0),
        ("output_dir", .vstr "outputs/"),
        ("exchange", .vdict
          [("open_cost", .vfloat 1 2), ("close_cost", .vfloat 15 4),
           ("min_cost", .vfloat 5 0), ("trade_unit", .vfloat 100 0),
           ("cash_limit", .vnone), ("generate_report", .vbool false),
           ("limit_threshold", .vtuple [.vfloat 5 2, .vfloat 5 2])])]) := by
  refine ⟨?_, ?_, ?_, ?_, ?_, ?_⟩
  · intro fs cwd fuel path cfg hparse hex
    simp only [get_backtest_config_fromfile, hparse, hex]
  · intro fs cwd fuel path cfg exm finalConfig ex hparse hex hm1 hm2
    simp only [get_backtest_config_fromfile, hparse, hex]
    rw [merge_a_into_bC_eq]
    rw [show exchange_config_default =
      [("open_cost", Val.vfloat 5 4), ("close_cost", .vfloat 15 4),
       ("min_cost", .vfloat 5 0), ("trade_unit", .vfloat 100 0),
       ("cash_limit", .vnone), ("generate_report", .vbool false)] from rfl]
    simp only [hm1]
    rw [mergeGoC_eq]
    rw [show backtest_config_default =
      [("debug_single_stock", Val.vnone), ("debug_single_day", .vnone),
       ("concurrency", .vint (-1)), ("multiplier", .vfloat 1 0),
       ("output_dir", .vstr "outputs/")] from rfl]
    have hm2' := (merge_dicts_ok _ _ _).mp hm2
    simp only [hm2']
  · intro k xs rest
    simp [convertAllListToTuple, convertValListToTuple]
  · intro k es rest
    simp [convertAllListToTuple, convertValListToTuple]
  · intro k v rest hd hl
    cases v
    case vdict es => simp [isDict] at hd
    case vlist xs => simp [isList] at hl
    all_goals simp [convertAllListToTuple, convertValListToTuple]
  · rfl

/-- Witness for C3 at the concrete config of `fsExampleC`. -/
theorem C3_witness :
    get_backtest_config_fromfile fsExampleC "/w" 1 "/w/c.yaml" =
      .ok [("debug_single_stock", .vnone), ("debug_single_day", .vnone),
        ("concurrency", .vint (-1)), ("multiplier", .vfloat 1 0),
        ("output_dir", .vstr "outputs/"),
        ("exchange", .vdict
          [("open_cost", .vfloat 1 2), ("close_cost", .vfloat 15 4),
           ("min_cost", .vfloat 5 0), ("trade_unit", .vfloat 100 0),
           ("cash_limit", .vnone), ("generate_report", .vbool false),
           ("limit_threshold", .vtuple [.vfloat 5 2, .vfloat 5 2])])] :=
  C3_assembly.2.1 fsExampleC "/w" 1 "/w/c.yaml"
    [("exchange", .vdict [("open_cost", .vfloat 1 2),
      ("limit_threshold", .vlist [.vfloat 5 2, .vfloat 5 2])])]
    [("open_cost", .vfloat 1 2), ("close_cost", .vfloat 15 4),
     ("min_cost", .vfloat 5 0), ("trade_unit", .vfloat 100 0),
     ("cash_limit", .vnone), ("generate_report", .vbool false),
     ("limit_threshold", .vlist [.vfloat 5 2, .vfloat 5 2])]
    [("debug_single_stock", .vnone), ("debug_single_day", .vnone),
     ("concurrency", .vint (-1)), ("multiplier", .vfloat 1 0),
     ("output_dir", .vstr "outputs/"),
     ("exchange", .vdict
       [("open_cost", .vfloat 1 2), ("close_cost", .vfloat 15 4),
        ("min_cost", .vfloat 5 0), ("trade_unit", .vfloat 100 0),
        ("cash_limit", .vnone), ("generate_report", .vbool false),
        ("limit_threshold", .vtuple [.vfloat 5 2, .vfloat 5 2])])]
    (.vdict [("open_cost", .vfloat 1 2),
      ("limit_threshold", .vlist [.vfloat 5 2, .vfloat 5 2])])
    rfl rfl (by rw [← merge_a_into_bC_eq]; rfl) (by rw [← merge_a_into_bC_eq]; rfl)

/-- Claim C4: `convert_instance_config` on a dict with a string `type` splits
on the last dot into `module_path` (empty when dotless) and `class`,
normalizes every other entry into `kwargs` and returns the descriptor; a
dict without `type` is converted value-wise with keys unchanged; lists and
tuples are rebuilt element-wise in order, tuples staying tuples; scalars are
returned unchanged; the spec's worked example evaluates as stated. -/
theorem C4_normalizer :
    (∀ (es : Entries) (s : String) (kw : Entries),
      lookupV es "type" = some (.vstr s) →
      convertKwargs es = .ok kw →
      convertInstanceConfig (.vdict es) =
        .ok (.vdict [("class", .vstr (splitTypeName s).2),
          ("module_path", .vstr (splitTypeName s).1), ("kwargs", .vdict kw)]) ∧
      List.Forall₂ (fun p q => p.1 = q.1 ∧ convertInstanceConfig p.2 = .ok q.2)
        (es.filter (fun p => !(p.1 == "type"))) kw) ∧
    (∀ (mp cn : String), '.' ∉ cn.toList →
      splitTypeName (mp ++ "." ++ cn) = (mp, cn)) ∧
    (∀ (s : String), '.' ∉ s.toList → splitTypeName s = ("", s)) ∧
    (∀ (es es' : Entries),
      lookupV es "type" = none →
      convertEntries es = .ok es' →
      convertInstanceConfig (.vdict es) = .ok (.vdict es') ∧
      es'.map Prod.fst = es.map Prod.fst ∧
      List.Forall₂ (fun p q => p.1 = q.1 ∧ convertInstanceConfig p.2 = .ok q.2) es es') ∧
    (∀ (xs ys : List Val), convertList xs = .ok ys →
      convertInstanceConfig (.vlist xs) = .ok (.vlist ys) ∧
      convertInstanceConfig (.vtuple xs) = .ok (.vtuple ys) ∧
      List.Forall₂ (fun x y => convertInstanceConfig x = .ok y) xs ys) ∧
    (convertInstanceConfig .vnone = .ok .vnone ∧
     (∀ b, convertInstanceConfig (.vbool b) = .ok (.vbool b)) ∧
     (∀ n, convertInstanceConfig (.vint n) = .ok (.vint n)) ∧
     (∀ m e, convertInstanceConfig (.vfloat m e) = .ok (.vfloat m e)) ∧
     (∀ s, convertInstanceConfig (.vstr s) = .ok (.vstr s))) ∧
    (convertInstanceConfig (.vdict [("type", .vstr "pkg.mod.ClassName"), ("a", .vint 1),
        ("b", .vdict [("type", .vstr "X"), ("c", .vint 2)])]) =
      .ok (.vdict [("class", .vstr "ClassName"), ("module_path", .vstr "pkg.mod"),
        ("kwargs", .vdict [("a", .vint 1),
          ("b", .vdict [("class", .vstr "X"), ("module_path", .vstr ""),
            ("kwargs", .vdict [("c", .vint 2)])])])])) := by
  refine ⟨?_, splitTypeName_dotted, splitTypeName_nodot, ?_, ?_, ?_, ?_⟩
  · intro es s kw ht hkw
    refine ⟨?_, convertKwargs_forall2 es kw hkw⟩
    rw [convert_dict_strtype es s ht, hkw]
    rfl
  · intro es es' ht hconv
    refine ⟨?_, convertEntries_keys es es' hconv, convertEntries_forall2 es es' hconv⟩
    rw [convert_dict_notype es ht, hconv]
    rfl
  · intro xs ys h
    refine ⟨?_, ?_, convertList_forall2 xs ys h⟩
    · rw [convert_vlist, h]
      rfl
    · rw [convert_vtuple, h]
      rfl
  · exact ⟨rfl, fun b => rfl, fun n => rfl, fun m e => rfl, fun s => rfl⟩
  · rfl

/-- Witness for C4 at a concrete descriptor dict and a concrete dotted name. -/
theorem C4_witness :
    convertInstanceConfig (.vdict [("type", .vstr "a.B"), ("x", .vint 7)]) =
      .ok (.vdict [("class", .vstr (splitTypeName "a.B").2),
        ("module_path", .vstr (splitTypeName "a.B").1),
        ("kwargs", .vdict [("x", .vint 7)])]) ∧
    splitTypeName ("pkg.mod" ++ "." ++ "ClassName") = ("pkg.mod", "ClassName") :=
  ⟨(C4_normalizer.1 [("type", .vstr "a.B"), ("x", .vint 7)] "a.B" [("x", .vint 7)]
      rfl rfl).1,
   C4_normalizer.2.1 "pkg.mod" "ClassName" (by decide)⟩

/-- Counterexample to C5 as stated: `merge_a_into_b` mutates its first
argument whenever a nested overlay dict is merged into a present base key,
because `v.pop("_delete_", False)` removes the `_delete_` entry from the
overlay's nested dict in place. -/
theorem C5_counterexample :
    merge_a_into_b_postA
        (.vdict [("k", .vdict [("_delete_", .vbool true), ("x", .vint 1)])])
        (.vdict [("k", .vdict [])]) ≠
      .vdict [("k", .vdict [("_delete_", .vbool true), ("x", .vint 1)])] := by
  rw [← merge_a_into_b_postAC_eq]
  decide

/-- Claim C5, amended: `merge_a_into_b(a, b)` leaves `a` unchanged provided
no dict nested anywhere inside `a` contains a `_delete_` key; with such a
key present, the in-place `v.pop("_delete_", False)` can mutate `a`
(see the counterexample). `b` is never mutated since it is shallow-copied
and only ever read. -/
theorem C5_no_mutation (ad : Entries) (b : Val) (h : noDeleteEntries ad = true) :
    merge_a_into_b_postA (.vdict ad) b = .vdict ad := by
  show Val.vdict (mergeRun ad b).2 = Val.vdict ad
  rw [(merge_post_of_noDelete (entriesSize ad) ad (Nat.le_refl _) h).2 b]

/-- Witness for C5 at a one-entry overlay without `_delete_` markers. -/
theorem C5_witness :
    noDeleteEntries [("x", Val.vint 1)] = true ∧
    merge_a_into_b_postA (.vdict [("x", .vint 1)]) (.vdict []) =
      .vdict [("x", .vint 1)] :=
  ⟨by decide, C5_no_mutation [("x", .vint 1)] (.vdict []) (by decide)⟩

/-- Counterexample to C6 as stated: when the overlay's value at a key is a
dict and the base's value at the same key is a scalar, the recursive call
`merge_a_into_b(v, b[k])` invokes `.copy()` on the scalar and raises
`AttributeError`, so the merge does not always succeed. -/
theorem C6_counterexample :
    merge_a_into_b (.vdict [("k", .vdict [("x", .vint 1)])])
      (.vdict [("k", .vstr "s")]) = .error () := by
  rw [← merge_a_into_bC_eq]
  rfl

/-- Claim C6, amended: `merge_a_into_b` does succeed on every pair of dicts
in which, recursively, each nested overlay dict whose key exists in the base
meets a dict on the base side (the `compatGo` condition); the overlay must
have duplicate-free keys at every level (`wfEntries`).  Without the
compatibility condition the merge can raise, as the counterexample shows. -/
theorem C6_total_on_compatible (ad bd : Entries)
    (hwf : wfEntries ad = true) (hc : compatGo ad bd = true) :
    ∃ m, merge_a_into_b (.vdict ad) (.vdict bd) = .ok m := by
  obtain ⟨m, hm⟩ := compat_mergeGo_ok (entriesSize ad) ad (Nat.le_refl _) hwf bd bd
    (fun k _ => ⟨rfl, rfl⟩) hc
  exact ⟨.vdict m, (merge_dicts_ok ad bd m).mpr hm⟩

/-- Witness for C6 at a scalar-only overlay against the empty base. -/
theorem C6_witness :
    wfEntries [("x", Val.vint 1)] = true ∧
    compatGo [("x", Val.vint 1)] [] = true ∧
    ∃ m, merge_a_into_b (.vdict [("x", .vint 1)]) (.vdict []) = .ok m := by
  have hc : compatGo [("x", Val.vint 1)] [] = true := by
    rw [compatGo_cons_nondict "x" (.vint 1) [] [] rfl]
    exact compatGo_nil _
  exact ⟨by decide, hc, C6_total_on_compatible [("x", .vint 1)] [] (by decide) hc⟩

/-- Counterexample to C7 as stated: the `_delete_` pop happens only on the
`isinstance(v, dict) and k in b` branch.  When the nested dict's key is
absent from the base, the overlay's nested dict is installed verbatim,
`_delete_` included, so merging differs from merging the stripped overlay. -/
theorem C7_counterexample :
    merge_a_into_b (.vdict [("k", .vdict [("_delete_", .vbool true), ("x", .vint 1)])])
      (.vdict []) ≠
    merge_a_into_b
      (stripDelete (.vdict [("k", .vdict [("_delete_", .vbool true), ("x", .vint 1)])]))
      (.vdict []) := by
  rw [← merge_a_into_bC_eq, ← merge_a_into_bC_eq]
  decide

/-- Claim C7, amended: along the branch where the marker is actually popped
— a nested overlay dict whose key exists in the base — a `_delete_` entry
in that nested dict is discarded without changing the merge output: merging
with the marker present equals merging with it removed.  When the key is
absent from the base, the marker instead survives verbatim into the result
(see the counterexample). -/
theorem C7_delete_discarded (k : String) (w : Val) (d rest bd : Entries)
    (h : hasKey bd k = true) :
    merge_a_into_b (.vdict ((k, .vdict (("_delete_", w) :: d)) :: rest)) (.vdict bd) =
    merge_a_into_b (.vdict ((k, .vdict d) :: rest)) (.vdict bd) := by
  have h1 := mergeGo_delete_entry k w d rest bd h
  show (mergeRun ((k, Val.vdict (("_delete_", w) :: d)) :: rest) (Val.vdict bd)).1 =
    (mergeRun ((k, Val.vdict d) :: rest) (Val.vdict bd)).1
  rw [mergeRun_dict, mergeRun_dict, h1]

/-- Witness for C7 at a concrete overlay and base sharing the key `k`. -/
theorem C7_witness :
    hasKey [("k", Val.vdict [])] "k" = true ∧
    merge_a_into_b
        (.vdict [("k", .vdict (("_delete_", .vbool true) :: [("x", .vint 1)]))])
        (.vdict [("k", .vdict [])]) =
      merge_a_into_b (.vdict [("k", .vdict [("x", .vint 1)])])
        (.vdict [("k", .vdict [])]) :=
  ⟨by decide,
   C7_delete_discarded "k" (.vbool true) [("x", .vint 1)] [] [("k", .vdict [])]
     (by decide)⟩

/-- Counterexample to C8 as stated: the unsupported-extension error carries
the fixed message `Only py/yml/yaml/json type are supported now!`, which
does not name the offending extension — `.txt` is not a substring of it. -/
theorem C8_counterexample :
    parseBacktestConfig fsExampleTxt "/w" 1 "/w/x.txt" =
      .error (.ioError "Only py/yml/yaml/json type are supported now!") ∧
    ¬ (".txt".toList <:+: "Only py/yml/yaml/json type are supported now!".toList) :=
  ⟨rfl, by decide⟩

/-- Claim C8, amended: a nonexistent path raises `FileNotFoundError` with a
message that contains the absolute path, and an existing file whose
extension is outside `{.py, .json, .yaml, .yml}` raises `IOError` — but
with the fixed message `Only py/yml/yaml/json type are supported now!`,
which does not name the offending extension (see the counterexample). -/
theorem C8_error_paths :
    (∀ (fs : String → Option Entries) (cwd : String) (fuel : Nat) (path : String),
      fs (absPath cwd path) = none →
      parseBacktestConfig fs cwd (fuel + 1) path =
        .error (.fileNotFound ("file \"" ++ absPath cwd path ++ "\" does not exist")) ∧
      (absPath cwd path).toList <:+:
        ("file \"" ++ absPath cwd path ++ "\" does not exist").toList) ∧
    (∀ (fs : String → Option Entries) (cwd : String) (fuel : Nat) (path : String)
        (config : Entries),
      fs (absPath cwd path) = some config →
      ¬(extOf (absPath cwd path) = ".py" ∨ extOf (absPath cwd path) = ".json" ∨
        extOf (absPath cwd path) = ".yaml" ∨ extOf (absPath cwd path) = ".yml") →
      parseBacktestConfig fs cwd (fuel + 1) path =
        .error (.ioError "Only py/yml/yaml/json type are supported now!")) := by
  constructor
  · intro fs cwd fuel path h
    refine ⟨parse_missing fs cwd fuel path h, ?_⟩
    exact ⟨"file \"".toList, "\" does not exist".toList, rfl⟩
  · intro fs cwd fuel path config h hext
    exact parse_bad_ext fs cwd fuel path config h hext

/-- Witness for C8 at a nonexistent path of the `.txt` example file system. -/
theorem C8_witness :
    fsExampleTxt (absPath "/w" "/w/nope.yaml") = none ∧
    (parseBacktestConfig fsExampleTxt "/w" (0 + 1) "/w/nope.yaml" =
      .error (.fileNotFound
        ("file \"" ++ absPath "/w" "/w/nope.yaml" ++ "\" does not exist")) ∧
     (absPath "/w" "/w/nope.yaml").toList <:+:
       ("file \"" ++ absPath "/w" "/w/nope.yaml" ++ "\" does not exist").toList) :=
  ⟨rfl, C8_error_paths.1 fsExampleTxt "/w" 0 "/w/nope.yaml" rfl⟩

/-- Claim C9 is refuted by the code: the `.py` branch has no try/finally, so
when the import raises, the exception propagates before `sys.path.pop(0)`
runs and the temporary directory stays on `sys.path` — the post-state still
carries `tmpConfigDir` in front and differs from the pre-state.  Only on the
success path is the search-path push popped and the module deregistered,
restoring the state exactly. -/
theorem C9_syspath_leak :
    (∀ (bindings : Entries) (tmpConfigDir tmpModuleName : String) (st : SysState),
      (loadPyModule false bindings tmpConfigDir tmpModuleName st).1 =
        .error .importError ∧
      (loadPyModule false bindings tmpConfigDir tmpModuleName st).2.path =
        tmpConfigDir :: st.path ∧
      (loadPyModule false bindings tmpConfigDir tmpModuleName st).2 ≠ st) ∧
    (∀ (bindings : Entries) (tmpConfigDir tmpModuleName : String) (st : SysState),
      (loadPyModule true bindings tmpConfigDir tmpModuleName st).2 = st) := by
  constructor
  · intro bindings tmpConfigDir tmpModuleName st
    refine ⟨rfl, rfl, ?_⟩
    intro hcontra
    have h2 : tmpConfigDir :: st.path = st.path := congrArg SysState.path hcontra
    have h3 := congrArg List.length h2
    simp at h3
  · intro bindings tmpConfigDir tmpModuleName st
    show (⟨(tmpConfigDir :: st.path).tail,
      (tmpModuleName :: st.modules).erase tmpModuleName⟩ : SysState) = st
    rw [List.tail_cons, List.erase_cons_head]

/-- Counterexample to C10 as stated: on a dict whose `type` value is itself
a dict (here one containing a `"type"` key, so `"." in type_name` is false),
`convert_instance_config` installs that dict as the `class` value, the
output still contains a dict with a `type` key, and a second application
yields a different value — idempotence fails. -/
theorem C10_counterexample :
    convertInstanceConfig (.vdict [("type", .vdict [("type", .vstr "X")])]) =
      .ok (.vdict [("class", .vdict [("type", .vstr "X")]),
        ("module_path", .vstr ""), ("kwargs", .vdict [])]) ∧
    noTypeKey (.vdict [("class", .vdict [("type", .vstr "X")]),
      ("module_path", .vstr ""), ("kwargs", .vdict [])]) = false ∧
    convertInstanceConfig (.vdict [("class", .vdict [("type", .vstr "X")]),
        ("module_path", .vstr ""), ("kwargs", .vdict [])]) ≠
      .ok (.vdict [("class", .vdict [("type", .vstr "X")]),
        ("module_path", .vstr ""), ("kwargs", .vdict [])]) :=
  ⟨rfl, rfl, by decide⟩

/-- Claim C10, amended: on every value in which each dict's `type` entry (if
any) holds a string — the shapes the normalizer is meant for —
`convert_instance_config` succeeds, its output contains no dict with a
`type` key, and a second application is the identity on that output:
`normalize(normalize(x)) = normalize(x)`.  On a dict whose `type` value is
itself a dict, idempotence fails (see the counterexample). -/
theorem C10_idempotent (x : Val) (ht : typesAreStrings x = true) :
    ∃ y, convertInstanceConfig x = .ok y ∧ noTypeKey y = true ∧
      convertInstanceConfig y = .ok y :=
  convert_norm (valSize x) x (Nat.le_refl _) ht

/-- Witness for C10 at a concrete one-entry descriptor dict. -/
theorem C10_witness :
    typesAreStrings (.vdict [("type", .vstr "a.B")]) = true ∧
    ∃ y, convertInstanceConfig (.vdict [("type", .vstr "a.B")]) = .ok y ∧
      noTypeKey y = true ∧ convertInstanceConfig y = .ok y :=
  ⟨by decide, C10_idempotent (.vdict [("type", .vstr "a.B")]) (by decide)⟩
